import Mathlib

/-!
Verification of the loot-box economy backend (`src/app.py`).

The probability-calibration pipeline, the ledger operations, the upgrade
chance model and the auth-payload validator are embedded as Lean functions
over exact rationals (`ℚ` stands for the Python `Decimal`/float values;
conversion to binary floats at the HTTP boundary is not modelled).
Randomness (`random.choices`, `random.uniform`) is modelled by explicit
oracle parameters, and the external fulfillment call by a boolean outcome
parameter.
-/

namespace Ludik

/-! ### Process-wide constants (src/app.py lines 34-38) -/

def UPGRADE_MAX_CHANCE : ℚ := 75
def UPGRADE_MIN_CHANCE : ℚ := 3
def UPGRADE_RISK_FACTOR : ℚ := 6/10
def RTP_TARGET : ℚ := 88/100

/-! ### Prize table calibrator (src/app.py lines 204-248)

`case_data` carries a price and raw prizes `{name, probability}`;
`all_floor_prices` is modelled as a total function `String → ℚ`
(`all_floor_prices.get(prize_name, 0)` with its default).  A built prize
row carries name, probability, floor price and the `is_ton_prize` flag;
the `imageFilename` field rides along unchanged in Python and is dropped
here. -/

structure RawPrize where
  name : String
  probability : ℚ
  is_ton_prize : Bool
deriving DecidableEq, Repr

structure CaseData where
  priceTON : ℚ
  prizes : List RawPrize
deriving DecidableEq, Repr

structure CalEntry where
  name : String
  probability : ℚ
  floor_price : ℚ
  is_ton_prize : Bool
deriving DecidableEq, Repr

instance : Inhabited CalEntry := ⟨⟨"", 0, 0, false⟩⟩

/-- Lines 207-212 / 234-238: build the working prize rows, looking the
floor price up with default 0. -/
def buildPrizes (cd : CaseData) (floors : String → ℚ) : List CalEntry :=
  cd.prizes.map fun p => ⟨p.name, p.probability, floors p.name, p.is_ton_prize⟩

/-- Line 214: value of `min((p for p in prizes if p['floor_price'] > 0),
key=..., default=None)` — the minimum floor price among entries with a
strictly positive floor price, if any. -/
def minPosFloor : List CalEntry → Option ℚ
  | [] => none
  | p :: rest =>
    let r := minPosFloor rest
    if 0 < p.floor_price then
      match r with
      | none => some p.floor_price
      | some m => some (min p.floor_price m)
    else r

/-- Python's `min` returns the first element attaining the minimal key, so
the filler prize is the first entry whose floor price equals
`minPosFloor`; identity tests `p is (not) filler_prize` become index
(in)equality against this index. -/
def findFillerIdx (m : ℚ) : List CalEntry → ℕ
  | [] => 0
  | p :: rest => if p.floor_price = m then 0 else findFillerIdx m rest + 1

/-- Sums over `p is not filler_prize` (lines 216-217): sum of `f` over
every index other than `k`, the head being index `i`. -/
def sumExceptAux (f : CalEntry → ℚ) (k : ℕ) (i : ℕ) : List CalEntry → ℚ
  | [] => 0
  | p :: rest => (if i = k then 0 else f p) + sumExceptAux f k (i + 1) rest

def sumExcept (f : CalEntry → ℚ) (k : ℕ) (ps : List CalEntry) : ℚ :=
  sumExceptAux f k 0 ps

/-- Lines 223-225: `p['probability'] *= scale` for every non-filler row. -/
def rescaleAux (k : ℕ) (c : ℚ) (i : ℕ) : List CalEntry → List CalEntry
  | [] => []
  | p :: rest =>
    (if i = k then p else { p with probability := p.probability * c }) ::
      rescaleAux k c (i + 1) rest

/-- Line 226: `filler_prize['probability'] = req_filler_prob`. -/
def setProbAux (k : ℕ) (q : ℚ) (i : ℕ) : List CalEntry → List CalEntry
  | [] => []
  | p :: rest =>
    (if i = k then { p with probability := q } else p) :: setProbAux k q (i + 1) rest

def probSum (ps : List CalEntry) : ℚ := (ps.map (·.probability)).sum

def evSum (ps : List CalEntry) : ℚ := (ps.map (fun p => p.floor_price * p.probability)).sum

/-- Lines 227-228 / 246-247: if `|Σ probability − 1| > 1e-7`, add the
residual to the first prize's probability. -/
def applyFinalCorrection (ps : List CalEntry) : List CalEntry :=
  let s := probSum ps
  if 1/10000000 < |s - 1| then
    match ps with
    | [] => []
    | p :: rest => { p with probability := p.probability + (1 - s) } :: rest
  else ps

/-- `calculate_rtp_probabilities_proportional_fallback` (lines 231-248).
The Python fallback rebuilds the same rows from `case_data`, so it takes
the case data and floor table exactly like the primary function. -/
def calculate_rtp_probabilities_proportional_fallback
    (cd : CaseData) (floors : String → ℚ) : List CalEntry :=
  let target_ev := cd.priceTON * RTP_TARGET
  let prizes := buildPrizes cd floors
  let current_ev := evSum prizes
  if current_ev ≤ 0 then []
  else
    let scale := target_ev / current_ev
    let prizes1 := prizes.map fun p => { p with probability := p.probability * scale }
    let total_prob := probSum prizes1
    if total_prob ≤ 0 then []
    else
      applyFinalCorrection (prizes1.map fun p => { p with probability := p.probability / total_prob })

/-- `calculate_rtp_probabilities` (lines 204-229), the filler-anchored
primary method with fallback.  The Python guard
`filler_prize['floor_price'] <= 0` (line 219) can never fire after a
successful `min` over positive floors, but is kept. -/
def calculate_rtp_probabilities (cd : CaseData) (floors : String → ℚ) : List CalEntry :=
  let target_ev := cd.priceTON * RTP_TARGET
  let prizes := buildPrizes cd floors
  if prizes = [] ∨ ∀ p ∈ prizes, p.floor_price = 0 then []
  else
    match minPosFloor prizes with
    | none => calculate_rtp_probabilities_proportional_fallback cd floors
    | some m =>
      let k := findFillerIdx m prizes
      let sum_non_filler_ev := sumExcept (fun p => p.floor_price * p.probability) k prizes
      let non_filler_prob := sumExcept (fun p => p.probability) k prizes
      let rem_ev := target_ev - sum_non_filler_ev
      if m ≤ 0 then calculate_rtp_probabilities_proportional_fallback cd floors
      else
        let req := rem_ev / m
        if ¬ (0 ≤ req ∧ req ≤ 1) then
          calculate_rtp_probabilities_proportional_fallback cd floors
        else
          let prizes1 := if 0 < non_filler_prob
            then rescaleAux k ((1 - req) / non_filler_prob) 0 prizes else prizes
          applyFinalCorrection (setProbAux k req 0 prizes1)

/-! ### Ledger data model (src/app.py lines 69-125)

Rows of the `users`, `nfts`, `inventory_items`, `promo_codes` and
`user_promo_code_redemptions` tables, and a `DB` value holding the store.
Auto-increment ids are modelled by `next_item_id`. -/

structure UserR where
  id : ℤ
  username : Option String
  first_name : Option String
  last_name : Option String
  ton_balance : ℚ
  referral_code : String
  referred_by_id : Option ℤ
  referral_earnings_pending : ℚ
  total_won_ton : ℚ
deriving DecidableEq, Repr

structure NFTR where
  name : String
  image_filename : String
  floor_price : ℚ
deriving DecidableEq, Repr

structure Item where
  id : ℕ
  user_id : ℤ
  name : String
  current_value : ℚ
  is_ton_prize : Bool
deriving DecidableEq, Repr

structure PromoCodeR where
  id : ℕ
  code_text : String
  activations_left : ℤ
  ton_amount : ℚ
deriving DecidableEq, Repr

structure Redemption where
  user_id : ℤ
  promo_code_id : ℕ
deriving DecidableEq, Repr

structure DB where
  users : List UserR
  nfts : List NFTR
  items : List Item
  promos : List PromoCodeR
  redemptions : List Redemption
  next_item_id : ℕ
deriving Repr

/-- `query(...).filter(...).first()`: first row satisfying a predicate. -/
def findQ {α : Type} (p : α → Prop) [DecidablePred p] : List α → Option α
  | [] => none
  | a :: l => if p a then some a else findQ p l

/-- `[row for row in table if predicate(row)]`. -/
def filterQ {α : Type} (p : α → Prop) [DecidablePred p] : List α → List α
  | [] => []
  | a :: l => if p a then a :: filterQ p l else filterQ p l

def findUser (db : DB) (uid : ℤ) : Option UserR :=
  findQ (fun u => u.id = uid) db.users

def findItem (db : DB) (uid : ℤ) (iid : ℕ) : Option Item :=
  findQ (fun it => it.id = iid ∧ it.user_id = uid) db.items

def findNFT (db : DB) (name : String) : Option NFTR :=
  findQ (fun n => n.name = name) db.nfts

def findPromo (db : DB) (code : String) : Option PromoCodeR :=
  findQ (fun pc => pc.code_text = code) db.promos

/-- Committing a mutated `User` row: replace the row with the same id. -/
def updateUser (db : DB) (u : UserR) : DB :=
  { db with users := db.users.map fun v => if v.id = u.id then u else v }

/-- Committing a mutated `PromoCode` row. -/
def updatePromo (db : DB) (pc : PromoCodeR) : DB :=
  { db with promos := db.promos.map fun q => if q.id = pc.id then pc else q }

/-- `db.delete(item)`: remove the inventory row with this primary key. -/
def deleteItem (db : DB) (iid : ℕ) : DB :=
  { db with items := filterQ (fun it => ¬ it.id = iid) db.items }

/-- Error taxonomy of the API handlers (the JSON error strings). -/
inductive ApiError where
  | authFailed
  | userNotFound
  | invalidRequest
  | invalidAmount
  | caseNotFound
  | insufficientFunds
  | itemNotFound
  | cannotWithdrawTon
  | cannotConvertTon
  | usernameRequired
  | externalServiceFailure
  | invalidData
  | notMoreValuable
  | invalidItemForUpgrade
  | codeRequired
  | codeExpired
  | alreadyRedeemed
  | notFound
deriving DecidableEq, Repr

/-- A calibrated backend case (`cases_data_backend` entry, line 286). -/
structure CaseTable where
  id : String
  priceTON : ℚ
  prizes : List CalEntry
deriving DecidableEq, Repr

/-! ### Ledger operations (src/app.py lines 352-573) -/

/-- `instant_topup_api` (lines 352-371): validate `0.1 ≤ amount ≤ 10000`,
then credit the balance. -/
def instant_topup (db : DB) (uid : ℤ) (amount : ℚ) : Except ApiError DB :=
  if ¬ (1/10 ≤ amount ∧ amount ≤ 10000) then .error .invalidAmount
  else
    match findUser db uid with
    | none => .error .userNotFound
    | some user => .ok (updateUser db { user with ton_balance := user.ton_balance + amount })

/-- The per-draw loop body of `open_case_api` (lines 391-396).
`random.choices(prizes, weights=...)` always returns an element of
`prizes`; the draw is modelled by an index oracle `rng`, reduced modulo
the table length.  Created rows get consecutive fresh ids. -/
def drawItems (uid : ℤ) (prizes : List CalEntry) (rng : ℕ → ℕ) (nextId : ℕ) :
    ℕ → ℕ → List Item
  | 0, _ => []
  | n + 1, j =>
    let chosen := prizes.getD (rng j % prizes.length) default
    ⟨nextId + j, uid, chosen.name, chosen.floor_price, chosen.is_ton_prize⟩ ::
      drawItems uid prizes rng nextId n (j + 1)

/-- `open_case_api` (lines 373-400). -/
def open_case (cases : List CaseTable) (db : DB) (uid : ℤ) (cid : String) (mult : ℕ)
    (rng : ℕ → ℕ) : Except ApiError (DB × List Item) :=
  if cid = "" ∨ ¬ (mult = 1 ∨ mult = 2 ∨ mult = 3) then .error .invalidRequest
  else
    match findUser db uid with
    | none => .error .userNotFound
    | some user =>
      match findQ (fun c => c.id = cid) cases with
      | none => .error .caseNotFound
      | some tcase =>
        let cost := tcase.priceTON * mult
        if user.ton_balance < cost then .error .insufficientFunds
        else
          let user' := { user with ton_balance := user.ton_balance - cost }
          let won := drawItems uid tcase.prizes rng db.next_item_id mult 0
          .ok ({ updateUser db user' with
                   items := db.items ++ won,
                   next_item_id := db.next_item_id + mult }, won)

/-- `withdraw_gift_api` (lines 402-451).  The external fulfillment call is
modelled by its boolean outcome `externalOk`; on failure the handler rolls
back, so no local state survives (the error carries no new `DB`). -/
def withdraw_gift (db : DB) (uid : ℤ) (username : Option String) (item_id : ℕ)
    (externalOk : Bool) : Except ApiError DB :=
  if username = none ∨ username = some "" then .error .usernameRequired
  else if item_id = 0 then .error .invalidRequest
  else
    match findItem db uid item_id with
    | none => .error .itemNotFound
    | some item =>
      if item.is_ton_prize then .error .cannotWithdrawTon
      else if externalOk then .ok (deleteItem db item.id)
      else .error .externalServiceFailure

/-- `upgrade_item_v2_api` (lines 453-482).  The outcome of
`random.uniform(0, 100) < float(chance)` is modelled by the oracle
`success` (the chance itself is `upgrade_chance` below). -/
def upgrade_item_v2 (db : DB) (uid : ℤ) (item_id : ℕ) (desired_name : String)
    (success : Bool) : Except ApiError DB :=
  if item_id = 0 ∨ desired_name = "" then .error .invalidRequest
  else
    match findUser db uid, findItem db uid item_id, findNFT db desired_name with
    | some user, some item, some desired_nft =>
      if item.is_ton_prize ∨ item.current_value ≤ 0 then .error .invalidItemForUpgrade
      else if desired_nft.floor_price ≤ item.current_value then .error .notMoreValuable
      else if success then
        let user' := { user with
          total_won_ton := user.total_won_ton + (desired_nft.floor_price - item.current_value) }
        let db2 := deleteItem (updateUser db user') item.id
        let newItem : Item :=
          ⟨db.next_item_id, uid, desired_nft.name, desired_nft.floor_price, false⟩
        .ok { db2 with items := db2.items ++ [newItem], next_item_id := db.next_item_id + 1 }
      else
        let user' := { user with total_won_ton := user.total_won_ton - item.current_value }
        .ok (deleteItem (updateUser db user') item.id)
    | _, _, _ => .error .invalidData

/-- `convert_to_ton_api` (lines 484-503): credit the item's value, floor
the winnings counter at zero, delete the item. -/
def convert_to_ton (db : DB) (uid : ℤ) (item_id : ℕ) : Except ApiError DB :=
  if item_id = 0 then .error .invalidRequest
  else
    match findUser db uid, findItem db uid item_id with
    | some user, some item =>
      if item.is_ton_prize then .error .cannotConvertTon
      else
        let user' := { user with
          ton_balance := user.ton_balance + item.current_value,
          total_won_ton := max 0 (user.total_won_ton - item.current_value) }
        .ok (deleteItem (updateUser db user') item.id)
    | _, _ => .error .notFound

/-- `sell_all_items_api` (lines 505-523): convert every non-currency item
of the account in one pass; with no eligible items, a no-op result. -/
def sell_all_items (db : DB) (uid : ℤ) : Except ApiError (DB × ℕ) :=
  match findUser db uid with
  | none => .error .userNotFound
  | some user =>
    let items_to_sell := filterQ (fun it => it.user_id = uid ∧ it.is_ton_prize = false) db.items
    if items_to_sell = [] then .ok (db, 0)
    else
      let total_val := (items_to_sell.map (·.current_value)).sum
      let user' := { user with
        ton_balance := user.ton_balance + total_val,
        total_won_ton := max 0 (user.total_won_ton - total_val) }
      let db1 := updateUser db user'
      .ok ({ db1 with
              items := filterQ (fun it => ¬ (it.user_id = uid ∧ it.is_ton_prize = false)) db1.items },
           items_to_sell.length)

/-- `withdraw_referral_earnings_api` (lines 534-551). -/
def withdraw_referral_earnings (db : DB) (uid : ℤ) : Except ApiError DB :=
  match findUser db uid with
  | none => .error .userNotFound
  | some user =>
    if 0 < user.referral_earnings_pending then
      .ok (updateUser db { user with
        ton_balance := user.ton_balance + user.referral_earnings_pending,
        referral_earnings_pending := 0 })
    else .ok db

/-- `redeem_promocode_api` (lines 553-573).  Note the order of the guards:
the expiry check (line 565) comes before the already-redeemed check
(line 566). -/
def redeem_promocode (db : DB) (uid : ℤ) (code : String) : Except ApiError (DB × ℚ) :=
  if code = "" then .error .codeRequired
  else
    match findUser db uid, findPromo db code with
    | some user, some promo =>
      if promo.activations_left ≠ -1 ∧ promo.activations_left ≤ 0 then .error .codeExpired
      else if ∃ r ∈ db.redemptions, r.user_id = uid ∧ r.promo_code_id = promo.id then
        .error .alreadyRedeemed
      else
        let promo' := if promo.activations_left ≠ -1
          then { promo with activations_left := promo.activations_left - 1 } else promo
        let user' := { user with ton_balance := user.ton_balance + promo.ton_amount }
        .ok ({ updatePromo (updateUser db user') promo' with
                 redemptions := db.redemptions ++ [⟨uid, promo.id⟩] }, user'.ton_balance)
    | _, _ => .error .invalidData

/-- Lines 586-593 of `register_referral_api`: resolve the referrer by code
and link unless the code is unknown or resolves to the account itself. -/
def linkReferrer (db : DB) (referred : UserR) (ref_code : String) :
    Except ApiError (DB × String) :=
  match findQ (fun u => u.referral_code = ref_code) db.users with
  | some referrer =>
    if referrer.id ≠ referred.id then
      .ok (updateUser db { referred with referred_by_id := some referrer.id }, "success")
    else .ok (db, "success")
  | none => .ok (db, "success")

/-- `register_referral_api` (lines 575-596).  The freshly generated
referral code of a lazily created account is the oracle `freshCode`. -/
def register_referral (db : DB) (user_id : ℤ) (username first_name last_name : Option String)
    (ref_code : String) (freshCode : String) : Except ApiError (DB × String) :=
  if user_id = 0 ∨ ref_code = "" then .error .invalidRequest
  else
    match findUser db user_id with
    | some referred =>
      if referred.referred_by_id ≠ none then .ok (db, "already_referred")
      else linkReferrer db referred ref_code
    | none =>
      let referred : UserR :=
        ⟨user_id, username, first_name, last_name, 0, freshCode, none, 0, 0⟩
      linkReferrer { db with users := db.users ++ [referred] } referred ref_code

/-! ### Upgrade chance model (src/app.py lines 467-470)

`x = val_desired / val_current` and
`chance = min(UPGRADE_MAX_CHANCE, max(UPGRADE_MIN_CHANCE,
UPGRADE_MAX_CHANCE * UPGRADE_RISK_FACTOR ** (x - 1)))`.  The `Decimal`
power with a possibly fractional exponent is real exponentiation. -/

noncomputable def upgrade_chance (currentValue desiredValue : ℚ) : ℝ :=
  let x : ℝ := (desiredValue : ℝ) / (currentValue : ℝ)
  min (UPGRADE_MAX_CHANCE : ℝ)
    (max (UPGRADE_MIN_CHANCE : ℝ)
      ((UPGRADE_MAX_CHANCE : ℝ) * (UPGRADE_RISK_FACTOR : ℝ) ^ (x - 1)))

/-! ### Auth payload validator (src/app.py lines 316-329)

HMAC-SHA256 is the abstract digest oracle `hmacHex key msg`; the payload
is the parsed query-string dictionary in iteration order.  The extraction
of the `user` identity object after a successful signature check
(lines 325-327) belongs to the authentication collaborator plumbing
(spec §1/§6) and is not modelled.  Note that no field of the payload is
compared against a clock anywhere: `AUTH_DATE_MAX_AGE_SECONDS` (line 29)
is referenced nowhere else in the program. -/

/-- Line 322: `"\n".join(sorted([f"{k}={v[0]}" for k, v in data.items()]))`. -/
def buildCheckString (fields : List (String × String)) : String :=
  String.intercalate "\n"
    ((fields.map fun kv => kv.1 ++ "=" ++ kv.2).mergeSort fun a b => decide (a ≤ b))

/-- `validate_init_data` (lines 316-329), returning whether the payload is
accepted. -/
def validate_init_data (hmacHex : String → String → String) (token : String)
    (data : List (String × String)) : Bool :=
  if token = "" then false
  else
    match findQ (fun kv => kv.1 = "hash") data with
    | none => false
    | some hv =>
      let check_str := buildCheckString (filterQ (fun kv => ¬ kv.1 = "hash") data)
      let secret := hmacHex "WebAppData" token
      decide (hmacHex secret check_str = hv.2)

/-! Concrete case definitions used to test the calibrator.  Both satisfy
the data-model constraints of the spec (§3): positive raw weights,
non-negative floor values, positive price. -/

def floorsCex : String → ℚ := fun n => if n = "A" then 2 else if n = "B" then 1 else 0

/-- Calibrated by the primary method: filler "B", required filler
probability 12/25 ∈ [0,1]. -/
def cexPrimary : CaseData := ⟨1, [⟨"A", 1/5, false⟩, ⟨"B", 1/5, false⟩]⟩

/-- Falls through to the proportional fallback: required filler
probability is negative. -/
def cexFallback : CaseData := ⟨1, [⟨"A", 3/5, false⟩, ⟨"B", 1/10, false⟩]⟩

/-- Rows used in the concrete ledger scenarios. -/
def wUser : UserR := ⟨1, some "alice", none, none, 10, "ref_1", none, 0, 0⟩

def wCase : CaseTable := ⟨"c1", 2, [⟨"A", 1, 1, false⟩]⟩

def wDB : DB := ⟨[wUser], [], [], [], [], 1⟩

/-- One ledger operation per economic action, carrying its request
parameters and oracles. -/
inductive LedgerOp where
  | topup (uid : ℤ) (amount : ℚ)
  | openCase (cases : List CaseTable) (uid : ℤ) (cid : String) (mult : ℕ) (rng : ℕ → ℕ)
  | upgrade (uid : ℤ) (item_id : ℕ) (desired_name : String) (success : Bool)
  | convert (uid : ℤ) (item_id : ℕ)
  | sellAll (uid : ℤ)
  | redeemPromo (uid : ℤ) (code : String)
  | withdrawReferral (uid : ℤ)
  | withdrawGift (uid : ℤ) (username : Option String) (item_id : ℕ) (externalOk : Bool)

/-- Observable post-state of one operation: the committed store on
success, the unchanged store when the handler returns an error (every
error is raised before commit, or rolls the transaction back). -/
def applyOp (op : LedgerOp) (db : DB) : DB :=
  match op with
  | .topup uid amount =>
    match instant_topup db uid amount with
    | .ok db' => db'
    | .error _ => db
  | .openCase cases uid cid mult rng =>
    match open_case cases db uid cid mult rng with
    | .ok (db', _) => db'
    | .error _ => db
  | .upgrade uid item_id desired_name success =>
    match upgrade_item_v2 db uid item_id desired_name success with
    | .ok db' => db'
    | .error _ => db
  | .convert uid item_id =>
    match convert_to_ton db uid item_id with
    | .ok db' => db'
    | .error _ => db
  | .sellAll uid =>
    match sell_all_items db uid with
    | .ok (db', _) => db'
    | .error _ => db
  | .redeemPromo uid code =>
    match redeem_promocode db uid code with
    | .ok (db', _) => db'
    | .error _ => db
  | .withdrawReferral uid =>
    match withdraw_referral_earnings db uid with
    | .ok db' => db'
    | .error _ => db
  | .withdrawGift uid username item_id externalOk =>
    match withdraw_gift db uid username item_id externalOk with
    | .ok db' => db'
    | .error _ => db

/-- Data-model invariants of spec §3 used by the balance property:
non-negative balances and pending referral earnings, non-negative stored
item values, non-negative promo credit amounts. -/
def GoodDB (db : DB) : Prop :=
  (∀ u ∈ db.users, 0 ≤ u.ton_balance ∧ 0 ≤ u.referral_earnings_pending) ∧
  (∀ it ∈ db.items, 0 ≤ it.current_value) ∧
  (∀ pc ∈ db.promos, 0 ≤ pc.ton_amount)

/-- Rows of the concrete promo-redemption scenario. -/
def pUser : UserR := ⟨1, none, none, none, 0, "ref_p", none, 0, 0⟩

def promoW : PromoCodeR := ⟨1, "CODE", 1, 5⟩

def dbP : DB := ⟨[pUser], [], [], [promoW], [], 1⟩

/-- The store after the first redemption. -/
def dbP1 : DB :=
  ⟨[{ pUser with ton_balance := 5 }], [], [], [{ promoW with activations_left := 0 }],
    [⟨1, 1⟩], 1⟩

/-- Rows of the concrete gift-withdrawal scenario. -/
def gItem : Item := ⟨1, 1, "Toy Bear", 3, false⟩

def dbG : DB := ⟨[wUser], [], [gItem], [], [], 2⟩

/-- Rows of the concrete upgrade scenario. -/
def uU : UserR := ⟨7, none, none, none, 0, "ref_u", none, 0, 0⟩

def iU : Item := ⟨3, 7, "Old", 5, false⟩

def nU : NFTR := ⟨"Neko Helmet", "img", 12⟩

def dbU : DB := ⟨[uU], [nU], [iU], [], [], 4⟩

/-- Rows of the concrete referral scenario. -/
def uC : UserR := ⟨9, none, none, none, 0, "ref_9", none, 0, 0⟩

def dbR : DB := ⟨[uC], [], [], [], [], 1⟩

/-! ### General lemmas about the store primitives -/

theorem findQ_eq_some {α : Type} {p : α → Prop} [DecidablePred p] :
    ∀ {l : List α} {a : α}, findQ p l = some a → a ∈ l ∧ p a := by
  intro l
  induction l with
  | nil => intro a h; simp [findQ] at h
  | cons b l ih =>
    intro a h
    by_cases hb : p b
    · simp only [findQ, if_pos hb, Option.some.injEq] at h
      subst h; exact ⟨List.mem_cons_self _ _, hb⟩
    · simp only [findQ, if_neg hb] at h
      obtain ⟨hm, hp⟩ := ih h
      exact ⟨List.mem_cons_of_mem _ hm, hp⟩

theorem findQ_isSome {α : Type} {p : α → Prop} [DecidablePred p] :
    ∀ {l : List α}, (∃ a ∈ l, p a) → ∃ b, findQ p l = some b := by
  intro l
  induction l with
  | nil => rintro ⟨a, ha, -⟩; simp at ha
  | cons b l ih =>
    rintro ⟨a, ha, hp⟩
    by_cases hb : p b
    · exact ⟨b, by simp [findQ, if_pos hb]⟩
    · rcases List.mem_cons.mp ha with rfl | ha'
      · exact absurd hp hb
      · obtain ⟨c, hc⟩ := ih ⟨a, ha', hp⟩
        exact ⟨c, by simp [findQ, if_neg hb, hc]⟩

theorem findQ_append_of_none {α : Type} {p : α → Prop} [DecidablePred p] :
    ∀ {l l2 : List α}, (∀ a ∈ l, ¬ p a) → findQ p (l ++ l2) = findQ p l2 := by
  intro l l2
  induction l with
  | nil => intro; rfl
  | cons b l ih =>
    intro h
    have hb : ¬ p b := h b (List.mem_cons_self _ _)
    simp only [List.cons_append, findQ, if_neg hb]
    exact ih fun a ha => h a (List.mem_cons_of_mem _ ha)

theorem mem_filterQ {α : Type} {p : α → Prop} [DecidablePred p] :
    ∀ {l : List α} {a : α}, a ∈ filterQ p l ↔ a ∈ l ∧ p a := by
  intro l
  induction l with
  | nil => intro a; simp [filterQ]
  | cons b l ih =>
    intro a
    by_cases hb : p b
    · simp only [filterQ, if_pos hb, List.mem_cons, ih]
      constructor
      · rintro (rfl | ⟨h1, h2⟩)
        · exact ⟨Or.inl rfl, hb⟩
        · exact ⟨Or.inr h1, h2⟩
      · rintro ⟨rfl | h1, h2⟩
        · exact Or.inl rfl
        · exact Or.inr ⟨h1, h2⟩
    · simp only [filterQ, if_neg hb, List.mem_cons, ih]
      constructor
      · rintro ⟨h1, h2⟩; exact ⟨Or.inr h1, h2⟩
      · rintro ⟨rfl | h1, h2⟩
        · exact absurd h2 hb
        · exact ⟨h1, h2⟩

theorem filterQ_append {α : Type} (p : α → Prop) [DecidablePred p] :
    ∀ (l l2 : List α), filterQ p (l ++ l2) = filterQ p l ++ filterQ p l2 := by
  intro l l2
  induction l with
  | nil => rfl
  | cons b l ih =>
    by_cases hb : p b
    · simp [filterQ, if_pos hb, ih]
    · simp [filterQ, if_neg hb, ih]

theorem filterQ_eq_self {α : Type} {p : α → Prop} [DecidablePred p] :
    ∀ {l : List α}, (∀ a ∈ l, p a) → filterQ p l = l := by
  intro l
  induction l with
  | nil => intro; rfl
  | cons b l ih =>
    intro h
    have hb : p b := h b (List.mem_cons_self _ _)
    simp only [filterQ, if_pos hb, List.cons.injEq, true_and]
    exact ih fun a ha => h a (List.mem_cons_of_mem _ ha)

theorem mem_map_update_users {l : List UserR} {u v : UserR}
    (h : v ∈ l.map fun w => if w.id = u.id then u else w) : v = u ∨ v ∈ l := by
  obtain ⟨w, hw, hv⟩ := List.mem_map.mp h
  by_cases hid : w.id = u.id
  · rw [if_pos hid] at hv; exact Or.inl hv.symm
  · rw [if_neg hid] at hv; exact Or.inr (hv ▸ hw)

theorem mem_updateUser {db : DB} {u v : UserR} (h : v ∈ (updateUser db u).users) :
    v = u ∨ v ∈ db.users :=
  mem_map_update_users h

/-- Looking an account up again after committing a mutated row with the
same id yields the mutated row. -/
theorem findQ_users_update {uid : ℤ} {u u' : UserR} :
    ∀ {l : List UserR}, findQ (fun v => v.id = uid) l = some u → u'.id = uid →
      findQ (fun v => v.id = uid) (l.map fun v => if v.id = u'.id then u' else v) =
        some u' := by
  intro l
  induction l with
  | nil => intro h _; simp [findQ] at h
  | cons b l ih =>
    intro h h'
    by_cases hb : b.id = uid
    · have hbu : b.id = u'.id := by rw [hb, h']
      rw [List.map_cons, if_pos hbu]
      simp only [findQ]
      rw [if_pos h']
    · have hbu : ¬ b.id = u'.id := fun hc => hb (hc.trans h')
      simp only [findQ, if_neg hb] at h
      rw [List.map_cons, if_neg hbu]
      simp only [findQ]
      rw [if_neg hb]
      exact ih h h'

theorem findUser_updateUser {db : DB} {uid : ℤ} {u u' : UserR}
    (h : findUser db uid = some u) (h' : u'.id = uid) :
    findUser (updateUser db u') uid = some u' :=
  findQ_users_update h h'

/-- Looking a promo code up again after committing a mutated row with the
same id and code yields the mutated row. -/
theorem findQ_promos_update {code : String} (pc pc' : PromoCodeR)
    (hid : pc'.id = pc.id) (hcode : pc'.code_text = code) :
    ∀ {l : List PromoCodeR}, findQ (fun q => q.code_text = code) l = some pc →
      findQ (fun q => q.code_text = code) (l.map fun q => if q.id = pc'.id then pc' else q) =
        some pc' := by
  intro l
  induction l with
  | nil => intro h; simp [findQ] at h
  | cons b l ih =>
    intro h
    by_cases hbid : b.id = pc'.id
    · simp [findQ, if_pos hbid, hcode]
    · by_cases hbc : b.code_text = code
      · simp only [findQ, if_pos hbc, Option.some.injEq] at h
        exact absurd (h ▸ hid : pc'.id = b.id) (fun hc => hbid hc.symm)
      · simp only [findQ, if_neg hbc] at h
        simp only [List.map_cons, if_neg hbid, findQ, if_neg hbc]
        exact ih h

/-! ### Arithmetic lemmas for the calibrator -/

theorem probSum_nil : probSum [] = 0 := rfl

theorem probSum_cons (p : CalEntry) (l : List CalEntry) :
    probSum (p :: l) = p.probability + probSum l := by
  simp [probSum]

theorem evSum_nil : evSum [] = 0 := rfl

theorem evSum_cons (p : CalEntry) (l : List CalEntry) :
    evSum (p :: l) = p.floor_price * p.probability + evSum l := by
  simp [evSum]

theorem probSum_map_mul (c : ℚ) :
    ∀ (ps : List CalEntry),
      probSum (ps.map fun p => { p with probability := p.probability * c }) =
        probSum ps * c := by
  intro ps
  induction ps with
  | nil => simp [probSum]
  | cons p l ih => simp [probSum_cons, ih, add_mul]

theorem probSum_map_div (c : ℚ) :
    ∀ (ps : List CalEntry),
      probSum (ps.map fun p => { p with probability := p.probability / c }) =
        probSum ps / c := by
  intro ps
  induction ps with
  | nil => simp [probSum]
  | cons p l ih => simp [probSum_cons, ih, add_div]

theorem evSum_map_mul (c : ℚ) :
    ∀ (ps : List CalEntry),
      evSum (ps.map fun p => { p with probability := p.probability * c }) =
        evSum ps * c := by
  intro ps
  induction ps with
  | nil => simp [evSum]
  | cons p l ih => simp [evSum_cons, ih, add_mul]; ring

theorem minPosFloor_pos : ∀ {ps : List CalEntry} {m : ℚ},
    minPosFloor ps = some m → 0 < m := by
  intro ps
  induction ps with
  | nil => intro m h; simp [minPosFloor] at h
  | cons p l ih =>
    intro m h
    simp only [minPosFloor] at h
    by_cases hp : 0 < p.floor_price
    · rw [if_pos hp] at h
      cases hl : minPosFloor l with
      | none =>
        rw [hl] at h
        exact (Option.some.inj h) ▸ hp
      | some m' =>
        rw [hl] at h
        exact (Option.some.inj h) ▸ lt_min hp (ih hl)
    · rw [if_neg hp] at h; exact ih h

theorem minPosFloor_isSome : ∀ {ps : List CalEntry},
    (∃ p ∈ ps, 0 < p.floor_price) → ∃ m, minPosFloor ps = some m := by
  intro ps
  induction ps with
  | nil => rintro ⟨p, hp, -⟩; simp at hp
  | cons b l ih =>
    rintro ⟨p, hp, hpos⟩
    by_cases hb : 0 < b.floor_price
    · cases hl : minPosFloor l with
      | none => exact ⟨b.floor_price, by simp [minPosFloor, if_pos hb, hl]⟩
      | some m' => exact ⟨min b.floor_price m', by simp [minPosFloor, if_pos hb, hl]⟩
    · rcases List.mem_cons.mp hp with rfl | hp'
      · exact absurd hpos hb
      · obtain ⟨m, hm⟩ := ih ⟨p, hp', hpos⟩
        exact ⟨m, by simp [minPosFloor, if_neg hb, hm]⟩

theorem minPosFloor_mem : ∀ {ps : List CalEntry} {m : ℚ},
    minPosFloor ps = some m → ∃ p ∈ ps, p.floor_price = m := by
  intro ps
  induction ps with
  | nil => intro m h; simp [minPosFloor] at h
  | cons b l ih =>
    intro m h
    simp only [minPosFloor] at h
    by_cases hb : 0 < b.floor_price
    · rw [if_pos hb] at h
      cases hl : minPosFloor l with
      | none =>
        rw [hl] at h
        exact ⟨b, List.mem_cons_self _ _, Option.some.inj h⟩
      | some m' =>
        rw [hl] at h
        have hmin : min b.floor_price m' = m := Option.some.inj h
        rcases le_total b.floor_price m' with hle | hle
        · exact ⟨b, List.mem_cons_self _ _, by rw [← hmin, min_eq_left hle]⟩
        · obtain ⟨p, hp, hpm⟩ := ih hl
          exact ⟨p, List.mem_cons_of_mem _ hp, by rw [hpm, ← hmin, min_eq_right hle]⟩
    · rw [if_neg hb] at h
      obtain ⟨p, hp, hpm⟩ := ih h
      exact ⟨p, List.mem_cons_of_mem _ hp, hpm⟩

theorem findFillerIdx_lt_length {m : ℚ} : ∀ {ps : List CalEntry},
    (∃ p ∈ ps, p.floor_price = m) → findFillerIdx m ps < ps.length := by
  intro ps
  induction ps with
  | nil => rintro ⟨p, hp, -⟩; simp at hp
  | cons b l ih =>
    rintro ⟨p, hp, hpm⟩
    by_cases hb : b.floor_price = m
    · simp [findFillerIdx, if_pos hb]
    · rcases List.mem_cons.mp hp with rfl | hp'
      · exact absurd hpm hb
      · simpa [findFillerIdx, if_neg hb] using ih ⟨p, hp', hpm⟩

theorem setProbAux_length (k : ℕ) (q : ℚ) :
    ∀ (i : ℕ) (ps : List CalEntry), (setProbAux k q i ps).length = ps.length := by
  intro i ps
  induction ps generalizing i with
  | nil => rfl
  | cons p l ih => simp [setProbAux, ih]

theorem rescaleAux_length (k : ℕ) (c : ℚ) :
    ∀ (i : ℕ) (ps : List CalEntry), (rescaleAux k c i ps).length = ps.length := by
  intro i ps
  induction ps generalizing i with
  | nil => rfl
  | cons p l ih => simp [rescaleAux, ih]

theorem applyFinalCorrection_length :
    ∀ (ps : List CalEntry), (applyFinalCorrection ps).length = ps.length := by
  intro ps
  by_cases hc : 1/10000000 < |probSum ps - 1|
  · simp only [applyFinalCorrection]
    rw [if_pos hc]
    cases ps with
    | nil => rfl
    | cons p rest => rfl
  · simp only [applyFinalCorrection]
    rw [if_neg hc]

/-- If the pre-correction sum misses 1 by more than 1e-7, the residual is
pushed into the first prize and the sum becomes exactly 1. -/
theorem probSum_applyFinalCorrection_eq_one {p : CalEntry} {rest : List CalEntry}
    (h : 1/10000000 < |probSum (p :: rest) - 1|) :
    probSum (applyFinalCorrection (p :: rest)) = 1 := by
  simp only [applyFinalCorrection]
  rw [if_pos h]
  simp only [probSum_cons]
  ring

/-- Effect of the final correction on the probability sum: the output sum
is always within 1e-7 of 1 for a nonempty table. -/
theorem probSum_applyFinalCorrection {ps : List CalEntry} (h : ps ≠ []) :
    |probSum (applyFinalCorrection ps) - 1| ≤ 1/10000000 := by
  match ps, h with
  | p :: rest, _ =>
    by_cases hc : 1/10000000 < |probSum (p :: rest) - 1|
    · rw [probSum_applyFinalCorrection_eq_one hc]
      norm_num
    · simp only [applyFinalCorrection]
      rw [if_neg hc]
      exact not_lt.mp hc

/-- Probability sum after the primary path's two in-place passes: rescale
every non-filler row by `c`, then overwrite the filler row (index `k`,
counting from `i`) with `q`. -/
theorem probSum_setProb_rescale (k : ℕ) (q c : ℚ) :
    ∀ (ps : List CalEntry) (i : ℕ),
      probSum (setProbAux k q i (rescaleAux k c i ps)) =
        c * sumExceptAux (fun p => p.probability) k i ps +
          (if i ≤ k ∧ k < i + ps.length then q else 0) := by
  intro ps
  induction ps with
  | nil =>
    intro i
    simp only [rescaleAux, setProbAux, probSum_nil, sumExceptAux, List.length_nil, mul_zero,
      zero_add]
    rw [if_neg (by omega)]
  | cons p l ih =>
    intro i
    by_cases hik : i = k
    · rw [show rescaleAux k c i (p :: l) = p :: rescaleAux k c (i + 1) l from by
        simp [rescaleAux, hik]]
      rw [show setProbAux k q i (p :: rescaleAux k c (i + 1) l)
          = { p with probability := q } :: setProbAux k q (i + 1) (rescaleAux k c (i + 1) l)
          from by simp [setProbAux, hik]]
      rw [probSum_cons, ih]
      rw [show sumExceptAux (fun p => p.probability) k i (p :: l)
          = sumExceptAux (fun p => p.probability) k (i + 1) l from by
        simp [sumExceptAux, hik]]
      rw [if_neg (show ¬ (i + 1 ≤ k ∧ k < i + 1 + l.length) from by omega),
        if_pos (show i ≤ k ∧ k < i + (p :: l).length from by
          simp only [List.length_cons]; omega)]
      ring
    · rw [show rescaleAux k c i (p :: l)
          = { p with probability := p.probability * c } :: rescaleAux k c (i + 1) l from by
        simp [rescaleAux, if_neg hik]]
      rw [show setProbAux k q i
            ({ p with probability := p.probability * c } :: rescaleAux k c (i + 1) l)
          = { p with probability := p.probability * c }
              :: setProbAux k q (i + 1) (rescaleAux k c (i + 1) l)
          from by simp [setProbAux, if_neg hik]]
      rw [probSum_cons, ih]
      rw [show sumExceptAux (fun p => p.probability) k i (p :: l)
          = p.probability + sumExceptAux (fun p => p.probability) k (i + 1) l from by
        simp [sumExceptAux, if_neg hik]]
      by_cases hc : i + 1 ≤ k ∧ k < i + 1 + l.length
      · rw [if_pos hc, if_pos (show i ≤ k ∧ k < i + (p :: l).length from by
          simp only [List.length_cons]; omega)]
        ring
      · rw [if_neg hc, if_neg (show ¬ (i ≤ k ∧ k < i + (p :: l).length) from by
          simp only [List.length_cons]; omega)]
        ring

/-- Probability sum after overwriting only the filler row (the branch with
zero non-filler probability mass skips the rescale). -/
theorem probSum_setProb (k : ℕ) (q : ℚ) :
    ∀ (ps : List CalEntry) (i : ℕ),
      probSum (setProbAux k q i ps) =
        sumExceptAux (fun p => p.probability) k i ps +
          (if i ≤ k ∧ k < i + ps.length then q else 0) := by
  intro ps
  induction ps with
  | nil =>
    intro i
    simp only [setProbAux, probSum_nil, sumExceptAux, List.length_nil, zero_add]
    rw [if_neg (by omega)]
  | cons p l ih =>
    intro i
    by_cases hik : i = k
    · rw [show setProbAux k q i (p :: l)
          = { p with probability := q } :: setProbAux k q (i + 1) l from by
        simp [setProbAux, hik]]
      rw [probSum_cons, ih]
      rw [show sumExceptAux (fun p => p.probability) k i (p :: l)
          = sumExceptAux (fun p => p.probability) k (i + 1) l from by
        simp [sumExceptAux, hik]]
      rw [if_neg (show ¬ (i + 1 ≤ k ∧ k < i + 1 + l.length) from by omega),
        if_pos (show i ≤ k ∧ k < i + (p :: l).length from by
          simp only [List.length_cons]; omega)]
      ring
    · rw [show setProbAux k q i (p :: l)
          = p :: setProbAux k q (i + 1) l from by simp [setProbAux, if_neg hik]]
      rw [probSum_cons, ih]
      rw [show sumExceptAux (fun p => p.probability) k i (p :: l)
          = p.probability + sumExceptAux (fun p => p.probability) k (i + 1) l from by
        simp [sumExceptAux, if_neg hik]]
      by_cases hc : i + 1 ≤ k ∧ k < i + 1 + l.length
      · rw [if_pos hc, if_pos (show i ≤ k ∧ k < i + (p :: l).length from by
          simp only [List.length_cons]; omega)]
        ring
      · rw [if_neg hc, if_neg (show ¬ (i ≤ k ∧ k < i + (p :: l).length) from by
          simp only [List.length_cons]; omega)]
        ring

theorem list_sum_pos_of_mem {l : List ℚ} (hnn : ∀ x ∈ l, 0 ≤ x) {x : ℚ}
    (hx : x ∈ l) (hxpos : 0 < x) : 0 < l.sum := by
  obtain ⟨s, t, rfl⟩ := List.append_of_mem hx
  rw [List.sum_append, List.sum_cons]
  have hs : 0 ≤ s.sum := List.sum_nonneg fun y hy => hnn y (by simp [hy])
  have ht : 0 ≤ t.sum := List.sum_nonneg fun y hy => hnn y (by simp [hy])
  linarith

theorem applyFinalCorrection_of_sum_one {ps : List CalEntry} (h : probSum ps = 1) :
    applyFinalCorrection ps = ps := by
  simp only [applyFinalCorrection]
  rw [if_neg]
  rw [h]
  norm_num

/-- Under the data-model constraints the proportional fallback always
normalizes to a nonempty table whose probabilities sum to exactly 1. -/
theorem fallback_probSum (cd : CaseData) (floors : String → ℚ)
    (hev : 0 < evSum (buildPrizes cd floors))
    (hpr : 0 < probSum (buildPrizes cd floors))
    (htarget : 0 < cd.priceTON * RTP_TARGET) :
    calculate_rtp_probabilities_proportional_fallback cd floors ≠ [] ∧
    probSum (calculate_rtp_probabilities_proportional_fallback cd floors) = 1 := by
  have hne : buildPrizes cd floors ≠ [] := by
    intro h
    rw [h] at hpr
    simp [probSum] at hpr
  have hscalepos : 0 < cd.priceTON * RTP_TARGET / evSum (buildPrizes cd floors) :=
    div_pos htarget hev
  have htot : probSum ((buildPrizes cd floors).map fun p =>
      { p with probability :=
          p.probability * (cd.priceTON * RTP_TARGET / evSum (buildPrizes cd floors)) }) =
      probSum (buildPrizes cd floors) *
        (cd.priceTON * RTP_TARGET / evSum (buildPrizes cd floors)) :=
    probSum_map_mul _ _
  have htotpos : 0 < probSum ((buildPrizes cd floors).map fun p =>
      { p with probability :=
          p.probability * (cd.priceTON * RTP_TARGET / evSum (buildPrizes cd floors)) }) := by
    rw [htot]; exact mul_pos hpr hscalepos
  simp only [calculate_rtp_probabilities_proportional_fallback]
  rw [if_neg (not_le.mpr hev), if_neg (not_le.mpr htotpos)]
  have hinner : probSum (((buildPrizes cd floors).map fun p =>
      { p with probability :=
          p.probability * (cd.priceTON * RTP_TARGET / evSum (buildPrizes cd floors)) }).map
        fun p =>
          { p with probability :=
              p.probability /
                probSum ((buildPrizes cd floors).map fun p =>
                  { p with probability :=
                      p.probability *
                        (cd.priceTON * RTP_TARGET / evSum (buildPrizes cd floors)) }) }) =
      1 := by
    rw [probSum_map_div]
    exact div_self (ne_of_gt htotpos)
  rw [applyFinalCorrection_of_sum_one hinner]
  refine ⟨?_, hinner⟩
  simp only [ne_eq, List.map_eq_nil_iff]
  exact hne


/-! scratch evaluation tests -/

theorem buildPrizes_cexPrimary :
    buildPrizes cexPrimary floorsCex = [⟨"A", 1/5, 2, false⟩, ⟨"B", 1/5, 1, false⟩] := by
  simp [buildPrizes, cexPrimary, floorsCex]

theorem buildPrizes_cexFallback :
    buildPrizes cexFallback floorsCex = [⟨"A", 3/5, 2, false⟩, ⟨"B", 1/10, 1, false⟩] := by
  simp [buildPrizes, cexFallback, floorsCex]

/-! ### Claim C1

The claim asserts `Σ probability × floorValue ≈ priceTON × targetRTP`
within 1e-6 for the calibrated table of every case with a positive-floor
prize, for both calibration paths.  Both paths refute it: the primary
path's rescale of the non-filler probabilities and the fallback's final
normalization both move the expected value off the target. -/

/-- C1 (counterexample): two well-formed case definitions (positive
weights, non-negative floors, positive price, a positive-floor prize)
whose calibrated tables miss `priceTON × targetRTP` by far more than
1e-6 — `cexPrimary` through the primary filler-anchored path (expected
value 38/25 against a target of 22/25), `cexFallback` through the
proportional fallback (expected value 13/7 against 22/25). -/
theorem claim_C1_counterexample :
    1/1000000 < |evSum (calculate_rtp_probabilities cexPrimary floorsCex)
      - cexPrimary.priceTON * RTP_TARGET| ∧
    1/1000000 < |evSum (calculate_rtp_probabilities cexFallback floorsCex)
      - cexFallback.priceTON * RTP_TARGET| := by
  constructor
  · simp only [calculate_rtp_probabilities, buildPrizes_cexPrimary]
    norm_num [minPosFloor, findFillerIdx, sumExcept, sumExceptAux, rescaleAux, setProbAux,
      applyFinalCorrection, probSum, evSum, RTP_TARGET, min_def, cexPrimary,
      List.cons_ne_nil, reduceCtorEq, abs_of_nonneg]
  · simp only [calculate_rtp_probabilities,
      calculate_rtp_probabilities_proportional_fallback, buildPrizes_cexFallback]
    norm_num [minPosFloor, findFillerIdx, sumExcept, sumExceptAux, rescaleAux, setProbAux,
      applyFinalCorrection, probSum, evSum, RTP_TARGET, min_def, cexFallback,
      List.cons_ne_nil, reduceCtorEq, abs_of_nonneg]

/-- C1 (amended): the expected-value identity holds exactly at the
intermediate step of each path — in the primary method the required
filler probability is chosen so that
`fillerFloor × requiredFillerProb + nonFillerEV = priceTON × targetRTP`
with the raw (pre-rescale) non-filler probabilities, and in the fallback
the scaled weights satisfy `Σ weight × floorValue = priceTON × targetRTP`
exactly before normalization.  The final tables need not satisfy the
claimed bound (see the counterexample). -/
theorem claim_C1 :
    (∀ (cd : CaseData) (floors : String → ℚ) (m : ℚ),
      minPosFloor (buildPrizes cd floors) = some m →
      m * ((cd.priceTON * RTP_TARGET
          - sumExcept (fun p => p.floor_price * p.probability)
              (findFillerIdx m (buildPrizes cd floors)) (buildPrizes cd floors)) / m)
        + sumExcept (fun p => p.floor_price * p.probability)
            (findFillerIdx m (buildPrizes cd floors)) (buildPrizes cd floors)
        = cd.priceTON * RTP_TARGET) ∧
    (∀ (cd : CaseData) (floors : String → ℚ),
      0 < evSum (buildPrizes cd floors) →
      evSum ((buildPrizes cd floors).map fun p =>
        { p with probability :=
            p.probability * (cd.priceTON * RTP_TARGET / evSum (buildPrizes cd floors)) })
        = cd.priceTON * RTP_TARGET) := by
  constructor
  · intro cd floors m hm
    have hmne : m ≠ 0 := ne_of_gt (minPosFloor_pos hm)
    field_simp
  · intro cd floors hev
    rw [evSum_map_mul]
    field_simp

/-- C1 (witness): the amended identities evaluated on the two concrete
cases. -/
theorem claim_C1_witness :
    minPosFloor (buildPrizes cexPrimary floorsCex) = some 1 ∧
    (1 : ℚ) * ((cexPrimary.priceTON * RTP_TARGET
        - sumExcept (fun p => p.floor_price * p.probability)
            (findFillerIdx 1 (buildPrizes cexPrimary floorsCex))
            (buildPrizes cexPrimary floorsCex)) / 1)
      + sumExcept (fun p => p.floor_price * p.probability)
          (findFillerIdx 1 (buildPrizes cexPrimary floorsCex))
          (buildPrizes cexPrimary floorsCex)
      = cexPrimary.priceTON * RTP_TARGET ∧
    0 < evSum (buildPrizes cexFallback floorsCex) ∧
    evSum ((buildPrizes cexFallback floorsCex).map fun p =>
      { p with probability :=
          p.probability *
            (cexFallback.priceTON * RTP_TARGET / evSum (buildPrizes cexFallback floorsCex)) })
      = cexFallback.priceTON * RTP_TARGET := by
  have hm : minPosFloor (buildPrizes cexPrimary floorsCex) = some 1 := by
    rw [buildPrizes_cexPrimary]
    norm_num [minPosFloor, min_def]
  have hev : 0 < evSum (buildPrizes cexFallback floorsCex) := by
    rw [buildPrizes_cexFallback]
    norm_num [evSum]
  exact ⟨hm, claim_C1.1 cexPrimary floorsCex 1 hm, hev, claim_C1.2 cexFallback floorsCex hev⟩

/-! ### Claim C2 -/

/-- C2: for every case definition satisfying the data-model constraints of
spec §3 (nonempty prize list, positive price, non-negative floor table,
positive raw weights) with at least one prize of positive floor value, the
calibrated table — produced by either the primary method or the
proportional fallback — is nonempty and its probabilities sum to 1 within
1e-7; moreover whenever a pre-correction sum misses 1 by more than 1e-7,
the residual is added to the first prize's probability, making the sum
exactly 1. -/
theorem claim_C2 :
    (∀ (cd : CaseData) (floors : String → ℚ),
      cd.prizes ≠ [] →
      0 < cd.priceTON →
      (∀ n, 0 ≤ floors n) →
      (∀ p ∈ cd.prizes, 0 < p.probability) →
      (∃ p ∈ cd.prizes, 0 < floors p.name) →
      calculate_rtp_probabilities cd floors ≠ [] ∧
      |probSum (calculate_rtp_probabilities cd floors) - 1| ≤ 1/10000000) ∧
    (∀ (p : CalEntry) (rest : List CalEntry),
      1/10000000 < |probSum (p :: rest) - 1| →
      probSum (applyFinalCorrection (p :: rest)) = 1) := by
  constructor
  · intro cd floors hne hprice hfl hpos hex
    have hpsne : buildPrizes cd floors ≠ [] := by
      simp only [buildPrizes, ne_eq, List.map_eq_nil_iff]
      exact hne
    have hppos : ∀ p ∈ buildPrizes cd floors, 0 < p.probability := by
      intro p hp
      obtain ⟨r, hr, rfl⟩ := List.mem_map.mp hp
      exact hpos r hr
    have hflnn : ∀ p ∈ buildPrizes cd floors, 0 ≤ p.floor_price := by
      intro p hp
      obtain ⟨r, hr, rfl⟩ := List.mem_map.mp hp
      exact hfl r.name
    have hex' : ∃ p ∈ buildPrizes cd floors, 0 < p.floor_price := by
      obtain ⟨r, hr, hrpos⟩ := hex
      exact ⟨⟨r.name, r.probability, floors r.name, r.is_ton_prize⟩,
        List.mem_map.mpr ⟨r, hr, rfl⟩, hrpos⟩
    have hpr : 0 < probSum (buildPrizes cd floors) := by
      obtain ⟨p0, hp0⟩ := List.exists_mem_of_ne_nil _ hpsne
      refine list_sum_pos_of_mem ?_ (List.mem_map_of_mem (·.probability) hp0) (hppos p0 hp0)
      intro x hx
      obtain ⟨p, hp, rfl⟩ := List.mem_map.mp hx
      exact le_of_lt (hppos p hp)
    have hev : 0 < evSum (buildPrizes cd floors) := by
      obtain ⟨p0, hp0, hp0f⟩ := hex'
      refine list_sum_pos_of_mem ?_
        (List.mem_map_of_mem (fun p => p.floor_price * p.probability) hp0)
        (mul_pos hp0f (hppos p0 hp0))
      intro x hx
      obtain ⟨p, hp, rfl⟩ := List.mem_map.mp hx
      exact mul_nonneg (hflnn p hp) (le_of_lt (hppos p hp))
    have htarget : 0 < cd.priceTON * RTP_TARGET :=
      mul_pos hprice (by norm_num [RTP_TARGET])
    have hcond1 : ¬ (buildPrizes cd floors = [] ∨
        ∀ p ∈ buildPrizes cd floors, p.floor_price = 0) := by
      rintro (h | h)
      · exact hpsne h
      · obtain ⟨p0, hp0, hp0f⟩ := hex'
        rw [h p0 hp0] at hp0f
        exact lt_irrefl 0 hp0f
    obtain ⟨m, hm⟩ := minPosFloor_isSome hex'
    have hmpos : 0 < m := minPosFloor_pos hm
    have hk_lt : findFillerIdx m (buildPrizes cd floors) < (buildPrizes cd floors).length :=
      findFillerIdx_lt_length (minPosFloor_mem hm)
    simp only [calculate_rtp_probabilities]
    rw [if_neg hcond1]
    simp only [hm]
    rw [if_neg (not_le.mpr hmpos)]
    set k := findFillerIdx m (buildPrizes cd floors) with hk
    set S := sumExcept (fun p => p.floor_price * p.probability) k (buildPrizes cd floors)
      with hS
    set N := sumExcept (fun p => p.probability) k (buildPrizes cd floors) with hN
    set R := (cd.priceTON * RTP_TARGET - S) / m with hR
    by_cases hreq : ¬ (0 ≤ R ∧ R ≤ 1)
    · rw [if_pos hreq]
      obtain ⟨f1, f2⟩ := fallback_probSum cd floors hev hpr htarget
      refine ⟨f1, ?_⟩
      rw [f2]
      norm_num
    · rw [if_neg hreq]
      by_cases hNpos : 0 < N
      · rw [if_pos hNpos]
        have hsum : probSum (setProbAux k R 0
            (rescaleAux k ((1 - R) / N) 0 (buildPrizes cd floors))) = 1 := by
          rw [probSum_setProb_rescale]
          rw [if_pos ⟨Nat.zero_le k, by simpa using hk_lt⟩]
          have hNa : sumExceptAux (fun p => p.probability) k 0 (buildPrizes cd floors) = N :=
            rfl
          rw [hNa, div_mul_cancel₀ _ (ne_of_gt hNpos)]
          ring
        refine ⟨?_, ?_⟩
        · intro hnil
          apply hpsne
          have h0 : (buildPrizes cd floors).length = 0 := by
            rw [← rescaleAux_length k ((1 - R) / N) 0 (buildPrizes cd floors),
              ← setProbAux_length k R 0 (rescaleAux k ((1 - R) / N) 0 (buildPrizes cd floors)),
              ← applyFinalCorrection_length, hnil]
            rfl
          exact List.length_eq_zero.mp h0
        · rw [applyFinalCorrection_of_sum_one hsum, hsum]
          norm_num
      · rw [if_neg hNpos]
        have hlen : (setProbAux k R 0 (buildPrizes cd floors)).length =
            (buildPrizes cd floors).length := setProbAux_length k R 0 (buildPrizes cd floors)
        have hne2 : setProbAux k R 0 (buildPrizes cd floors) ≠ [] := by
          intro hnil
          apply hpsne
          rw [hnil] at hlen
          exact List.length_eq_zero.mp hlen.symm
        refine ⟨?_, probSum_applyFinalCorrection hne2⟩
        intro hnil
        apply hne2
        have h0 : (setProbAux k R 0 (buildPrizes cd floors)).length = 0 := by
          rw [← applyFinalCorrection_length, hnil]
          rfl
        exact List.length_eq_zero.mp h0
  · intro p rest h
    exact probSum_applyFinalCorrection_eq_one h

/-- C2 (witness): the sum-to-one property evaluated on the concrete
primary-path case. -/
theorem claim_C2_witness :
    (cexPrimary.prizes ≠ [] ∧ 0 < cexPrimary.priceTON ∧ (∀ n, 0 ≤ floorsCex n) ∧
      (∀ p ∈ cexPrimary.prizes, 0 < p.probability) ∧
      (∃ p ∈ cexPrimary.prizes, 0 < floorsCex p.name)) ∧
    calculate_rtp_probabilities cexPrimary floorsCex ≠ [] ∧
    |probSum (calculate_rtp_probabilities cexPrimary floorsCex) - 1| ≤ 1/10000000 := by
  have h1 : cexPrimary.prizes ≠ [] := by simp [cexPrimary]
  have h2 : (0 : ℚ) < cexPrimary.priceTON := by norm_num [cexPrimary]
  have h3 : ∀ n, 0 ≤ floorsCex n := by
    intro n
    simp only [floorsCex]
    split
    · norm_num
    · split <;> norm_num
  have h4 : ∀ p ∈ cexPrimary.prizes, 0 < p.probability := by
    intro p hp
    simp only [cexPrimary, List.mem_cons, List.not_mem_nil, or_false] at hp
    rcases hp with rfl | rfl <;> norm_num
  have h5 : ∃ p ∈ cexPrimary.prizes, 0 < floorsCex p.name :=
    ⟨⟨"A", 1/5, false⟩, by simp [cexPrimary], by norm_num [floorsCex]⟩
  exact ⟨⟨h1, h2, h3, h4, h5⟩, claim_C2.1 cexPrimary floorsCex h1 h2 h3 h4 h5⟩

/-! ### Claim C3 -/

/-- C3: the upgrade success chance is
`clamp(maxChance × riskFactor^(x−1), minChance, maxChance)` with
`x = desiredValue / currentValue` and the process-wide constants
`maxChance = 75`, `minChance = 3`, `riskFactor = 0.6`; for every valid
upgrade (`0 < currentValue < desiredValue`) the chance lies in `[3, 75]`,
and for `currentValue = 10`, `desiredValue = 20` it is exactly 45. -/
theorem claim_C3 :
    (UPGRADE_MAX_CHANCE = 75 ∧ UPGRADE_MIN_CHANCE = 3 ∧ UPGRADE_RISK_FACTOR = 6/10) ∧
    (∀ currentValue desiredValue : ℚ, 0 < currentValue → currentValue < desiredValue →
      (UPGRADE_MIN_CHANCE : ℝ) ≤ upgrade_chance currentValue desiredValue ∧
      upgrade_chance currentValue desiredValue ≤ (UPGRADE_MAX_CHANCE : ℝ)) ∧
    upgrade_chance 10 20 = 45 := by
  refine ⟨⟨rfl, rfl, rfl⟩, ?_, ?_⟩
  · intro cv dv _ _
    constructor
    · refine le_min ?_ (le_max_left _ _)
      norm_num [UPGRADE_MIN_CHANCE, UPGRADE_MAX_CHANCE]
    · exact min_le_left _ _
  · simp only [upgrade_chance]
    have h1 : (((20 : ℚ) : ℝ) / ((10 : ℚ) : ℝ)) - 1 = 1 := by push_cast; norm_num
    rw [h1, Real.rpow_one]
    norm_num [UPGRADE_MAX_CHANCE, UPGRADE_MIN_CHANCE, UPGRADE_RISK_FACTOR]

/-- C3 (witness): the bounds applied at the concrete scenario 10 → 20. -/
theorem claim_C3_witness :
    (0 : ℚ) < 10 ∧ (10 : ℚ) < 20 ∧
    (UPGRADE_MIN_CHANCE : ℝ) ≤ upgrade_chance 10 20 ∧
    upgrade_chance 10 20 ≤ (UPGRADE_MAX_CHANCE : ℝ) :=
  ⟨by norm_num, by norm_num,
    (claim_C3.2.1 10 20 (by norm_num) (by norm_num)).1,
    (claim_C3.2.1 10 20 (by norm_num) (by norm_num)).2⟩

/-! ### Claim C4 -/

theorem drawItems_length (uid : ℤ) (prizes : List CalEntry) (rng : ℕ → ℕ) (nextId : ℕ) :
    ∀ (n j : ℕ), (drawItems uid prizes rng nextId n j).length = n := by
  intro n
  induction n with
  | zero => intro j; rfl
  | succ n ih => intro j; simp only [drawItems, List.length_cons, ih]

theorem drawItems_mem {prizes : List CalEntry} (hne : prizes ≠ []) (uid : ℤ)
    (rng : ℕ → ℕ) (nextId : ℕ) :
    ∀ (n j : ℕ), ∀ it ∈ drawItems uid prizes rng nextId n j,
      ∃ p ∈ prizes, it.name = p.name ∧ it.current_value = p.floor_price ∧
        it.is_ton_prize = p.is_ton_prize ∧ it.user_id = uid := by
  intro n
  induction n with
  | zero => intro j it hit; simp [drawItems] at hit
  | succ n ih =>
    intro j it hit
    simp only [drawItems, List.mem_cons] at hit
    rcases hit with rfl | hit
    · have hlen : 0 < prizes.length := List.length_pos.mpr hne
      have hidx : rng j % prizes.length < prizes.length := Nat.mod_lt _ hlen
      refine ⟨prizes.getD (rng j % prizes.length) default, ?_, rfl, rfl, rfl, rfl⟩
      rw [List.getD_eq_getElem prizes default hidx]
      exact List.getElem_mem hidx
    · exact ih (j + 1) it hit

/-- C4: for every account, case and quantity in {1,2,3}, opening the case
fails with the insufficient-funds error (before any mutation) when
`balance < priceTON × quantity`, and otherwise debits exactly
`priceTON × quantity` and appends exactly `quantity` new inventory
entries, each drawn from the case's calibrated table. -/
theorem claim_C4 :
    ∀ (cases : List CaseTable) (db : DB) (uid : ℤ) (cid : String) (mult : ℕ)
      (rng : ℕ → ℕ) (user : UserR) (tcase : CaseTable),
      (mult = 1 ∨ mult = 2 ∨ mult = 3) →
      cid ≠ "" →
      findUser db uid = some user →
      findQ (fun c => c.id = cid) cases = some tcase →
      tcase.prizes ≠ [] →
      ((user.ton_balance < tcase.priceTON * mult →
        open_case cases db uid cid mult rng = .error .insufficientFunds) ∧
       (¬ user.ton_balance < tcase.priceTON * mult →
        ∃ db' won, open_case cases db uid cid mult rng = .ok (db', won) ∧
          findUser db' uid =
            some { user with ton_balance := user.ton_balance - tcase.priceTON * mult } ∧
          won.length = mult ∧
          db'.items = db.items ++ won ∧
          ∀ it ∈ won, ∃ p ∈ tcase.prizes,
            it.name = p.name ∧ it.current_value = p.floor_price ∧ it.user_id = uid)) := by
  intro cases db uid cid mult rng user tcase hmult hcid huser hcase hprizes
  have hvalid : ¬ (cid = "" ∨ ¬ (mult = 1 ∨ mult = 2 ∨ mult = 3)) := by
    rintro (h | h)
    · exact hcid h
    · exact h hmult
  constructor
  · intro hbal
    simp only [open_case]
    rw [if_neg hvalid]
    simp only [huser, hcase]
    rw [if_pos hbal]
  · intro hbal
    simp only [open_case]
    rw [if_neg hvalid]
    simp only [huser, hcase]
    rw [if_neg hbal]
    have huid : user.id = uid := (findQ_eq_some huser).2
    refine ⟨_, _, rfl, ?_, drawItems_length uid tcase.prizes rng db.next_item_id mult 0, rfl,
      ?_⟩
    · exact findQ_users_update huser huid
    · intro it hit
      obtain ⟨p, hp, h1, h2, _, h4⟩ :=
        drawItems_mem hprizes uid rng db.next_item_id mult 0 it hit
      exact ⟨p, hp, h1, h2, h4⟩


/-- C4 (witness): price 2.0, quantity 3, starting balance 10.0 — after
opening, the balance is 4.0 and exactly 3 new inventory rows exist. -/
theorem claim_C4_witness :
    ∃ db' won, open_case [wCase] wDB 1 "c1" 3 (fun _ => 0) = .ok (db', won) ∧
      findUser db' 1 = some { wUser with ton_balance := 4 } ∧
      won.length = 3 ∧
      db'.items = wDB.items ++ won := by
  have h := claim_C4 [wCase] wDB 1 "c1" 3 (fun _ => 0) wUser wCase
    (by norm_num)
    (by decide)
    (by simp [findUser, findQ, wDB, wUser])
    (by simp [findQ, wCase])
    (by simp [wCase])
  obtain ⟨db', won, h1, h2, h3, h4, -⟩ := h.2 (by norm_num [wUser, wCase])
  refine ⟨db', won, h1, ?_, h3, h4⟩
  have : ({ wUser with ton_balance := wUser.ton_balance - wCase.priceTON * (3 : ℕ) } : UserR)
      = { wUser with ton_balance := 4 } := by
    simp only [wUser, wCase]
    norm_num
  rw [← this]
  exact h2

/-! ### Claim C5 -/


theorem instant_topup_ok {db : DB} {uid : ℤ} {amount : ℚ} {db' : DB}
    (h : instant_topup db uid amount = .ok db') (hg : GoodDB db) :
    ∀ u ∈ db'.users, 0 ≤ u.ton_balance := by
  simp only [instant_topup] at h
  by_cases hv : ¬ (1/10 ≤ amount ∧ amount ≤ 10000)
  · rw [if_pos hv] at h
    exact Except.noConfusion h
  · rw [if_neg hv] at h
    push_neg at hv
    cases hfind : findUser db uid with
    | none => simp only [hfind] at h; exact Except.noConfusion h
    | some user =>
      simp only [hfind] at h
      have huser := findQ_eq_some hfind
      obtain rfl := (Except.ok.inj h).symm
      intro v hv'
      rcases mem_updateUser hv' with rfl | hv''
      · show (0 : ℚ) ≤ user.ton_balance + amount
        have hb := (hg.1 user huser.1).1
        linarith [hv.1]
      · exact (hg.1 v hv'').1

theorem open_case_ok {cases : List CaseTable} {db : DB} {uid : ℤ} {cid : String}
    {mult : ℕ} {rng : ℕ → ℕ} {db' : DB} {won : List Item}
    (h : open_case cases db uid cid mult rng = .ok (db', won)) (hg : GoodDB db) :
    ∀ u ∈ db'.users, 0 ≤ u.ton_balance := by
  simp only [open_case] at h
  by_cases hv : cid = "" ∨ ¬ (mult = 1 ∨ mult = 2 ∨ mult = 3)
  · rw [if_pos hv] at h
    exact Except.noConfusion h
  · rw [if_neg hv] at h
    cases hfind : findUser db uid with
    | none => simp only [hfind] at h; exact Except.noConfusion h
    | some user =>
      simp only [hfind] at h
      cases hcase : findQ (fun c => c.id = cid) cases with
      | none => simp only [hcase] at h; exact Except.noConfusion h
      | some tcase =>
        simp only [hcase] at h
        by_cases hbal : user.ton_balance < tcase.priceTON * mult
        · rw [if_pos hbal] at h
          exact Except.noConfusion h
        · rw [if_neg hbal] at h
          have huser := findQ_eq_some hfind
          obtain ⟨h1, -⟩ := Prod.mk.injEq .. |>.mp (Except.ok.inj h)
          subst h1
          intro v hv'
          rcases mem_updateUser hv' with rfl | hv''
          · show (0 : ℚ) ≤ user.ton_balance - tcase.priceTON * mult
            linarith [not_lt.mp hbal]
          · exact (hg.1 v hv'').1

theorem upgrade_item_v2_ok {db : DB} {uid : ℤ} {item_id : ℕ} {desired_name : String}
    {success : Bool} {db' : DB}
    (h : upgrade_item_v2 db uid item_id desired_name success = .ok db') (hg : GoodDB db) :
    ∀ u ∈ db'.users, 0 ≤ u.ton_balance := by
  simp only [upgrade_item_v2] at h
  by_cases hv : item_id = 0 ∨ desired_name = ""
  · rw [if_pos hv] at h
    exact Except.noConfusion h
  · rw [if_neg hv] at h
    cases hfind : findUser db uid with
    | none => simp only [hfind] at h; exact Except.noConfusion h
    | some user =>
      simp only [hfind] at h
      cases hitem : findItem db uid item_id with
      | none => simp only [hitem] at h; exact Except.noConfusion h
      | some item =>
        simp only [hitem] at h
        cases hnft : findNFT db desired_name with
        | none => simp only [hnft] at h; exact Except.noConfusion h
        | some desired_nft =>
          simp only [hnft] at h
          have huser := findQ_eq_some hfind
          by_cases h1 : item.is_ton_prize ∨ item.current_value ≤ 0
          · rw [if_pos h1] at h; exact Except.noConfusion h
          · rw [if_neg h1] at h
            by_cases h2 : desired_nft.floor_price ≤ item.current_value
            · rw [if_pos h2] at h; exact Except.noConfusion h
            · rw [if_neg h2] at h
              cases success with
              | true =>
                simp only [if_pos] at h
                obtain rfl := (Except.ok.inj h).symm
                intro v hv'
                rcases mem_updateUser hv' with rfl | hv''
                · exact (hg.1 user huser.1).1
                · exact (hg.1 v hv'').1
              | false =>
                simp only [Bool.false_eq_true, if_neg] at h
                obtain rfl := (Except.ok.inj h).symm
                intro v hv'
                rcases mem_updateUser hv' with rfl | hv''
                · exact (hg.1 user huser.1).1
                · exact (hg.1 v hv'').1

theorem convert_to_ton_ok {db : DB} {uid : ℤ} {item_id : ℕ} {db' : DB}
    (h : convert_to_ton db uid item_id = .ok db') (hg : GoodDB db) :
    ∀ u ∈ db'.users, 0 ≤ u.ton_balance := by
  simp only [convert_to_ton] at h
  by_cases hv : item_id = 0
  · rw [if_pos hv] at h
    exact Except.noConfusion h
  · rw [if_neg hv] at h
    cases hfind : findUser db uid with
    | none => simp only [hfind] at h; exact Except.noConfusion h
    | some user =>
      simp only [hfind] at h
      cases hitem : findItem db uid item_id with
      | none => simp only [hitem] at h; exact Except.noConfusion h
      | some item =>
        simp only [hitem] at h
        by_cases hton : item.is_ton_prize
        · rw [if_pos hton] at h; exact Except.noConfusion h
        · rw [if_neg hton] at h
          have huser := findQ_eq_some hfind
          have hitem' := findQ_eq_some hitem
          obtain rfl := (Except.ok.inj h).symm
          intro v hv'
          rcases mem_updateUser hv' with rfl | hv''
          · show (0 : ℚ) ≤ user.ton_balance + item.current_value
            have hb := (hg.1 user huser.1).1
            have hval := hg.2.1 item hitem'.1
            linarith
          · exact (hg.1 v hv'').1

theorem sell_all_items_ok {db : DB} {uid : ℤ} {db' : DB} {n : ℕ}
    (h : sell_all_items db uid = .ok (db', n)) (hg : GoodDB db) :
    ∀ u ∈ db'.users, 0 ≤ u.ton_balance := by
  simp only [sell_all_items] at h
  cases hfind : findUser db uid with
  | none => simp only [hfind] at h; exact Except.noConfusion h
  | some user =>
    simp only [hfind] at h
    by_cases hempty : filterQ (fun it => it.user_id = uid ∧ it.is_ton_prize = false) db.items
        = []
    · rw [if_pos hempty] at h
      obtain ⟨h1, -⟩ := Prod.mk.injEq .. |>.mp (Except.ok.inj h)
      subst h1
      intro v hv'
      exact (hg.1 v hv').1
    · rw [if_neg hempty] at h
      have huser := findQ_eq_some hfind
      have htot : 0 ≤ ((filterQ (fun it => it.user_id = uid ∧ it.is_ton_prize = false)
          db.items).map (·.current_value)).sum := by
        apply List.sum_nonneg
        intro x hx
        obtain ⟨it, hit, rfl⟩ := List.mem_map.mp hx
        exact hg.2.1 it (mem_filterQ.mp hit).1
      obtain ⟨h1, -⟩ := Prod.mk.injEq .. |>.mp (Except.ok.inj h)
      subst h1
      intro v hv'
      rcases mem_updateUser hv' with rfl | hv''
      · show (0 : ℚ) ≤ user.ton_balance + _
        have hb := (hg.1 user huser.1).1
        linarith
      · exact (hg.1 v hv'').1

theorem redeem_promocode_ok {db : DB} {uid : ℤ} {code : String} {db' : DB} {bal : ℚ}
    (h : redeem_promocode db uid code = .ok (db', bal)) (hg : GoodDB db) :
    ∀ u ∈ db'.users, 0 ≤ u.ton_balance := by
  simp only [redeem_promocode] at h
  by_cases hv : code = ""
  · rw [if_pos hv] at h
    exact Except.noConfusion h
  · rw [if_neg hv] at h
    cases hfind : findUser db uid with
    | none => simp only [hfind] at h; exact Except.noConfusion h
    | some user =>
      simp only [hfind] at h
      cases hpromo : findPromo db code with
      | none => simp only [hpromo] at h; exact Except.noConfusion h
      | some promo =>
        simp only [hpromo] at h
        by_cases h1 : promo.activations_left ≠ -1 ∧ promo.activations_left ≤ 0
        · rw [if_pos h1] at h; exact Except.noConfusion h
        · rw [if_neg h1] at h
          by_cases h2 : ∃ r ∈ db.redemptions, r.user_id = uid ∧ r.promo_code_id = promo.id
          · rw [if_pos h2] at h; exact Except.noConfusion h
          · rw [if_neg h2] at h
            have huser := findQ_eq_some hfind
            have hpromo' := findQ_eq_some hpromo
            obtain ⟨h3, -⟩ := Prod.mk.injEq .. |>.mp (Except.ok.inj h)
            subst h3
            intro v hv'
            rcases mem_updateUser hv' with rfl | hv''
            · show (0 : ℚ) ≤ user.ton_balance + promo.ton_amount
              have hb := (hg.1 user huser.1).1
              have ha := hg.2.2 promo hpromo'.1
              linarith
            · exact (hg.1 v hv'').1

theorem withdraw_referral_earnings_ok {db : DB} {uid : ℤ} {db' : DB}
    (h : withdraw_referral_earnings db uid = .ok db') (hg : GoodDB db) :
    ∀ u ∈ db'.users, 0 ≤ u.ton_balance := by
  simp only [withdraw_referral_earnings] at h
  cases hfind : findUser db uid with
  | none => simp only [hfind] at h; exact Except.noConfusion h
  | some user =>
    simp only [hfind] at h
    by_cases hp : 0 < user.referral_earnings_pending
    · rw [if_pos hp] at h
      have huser := findQ_eq_some hfind
      obtain rfl := (Except.ok.inj h).symm
      intro v hv'
      rcases mem_updateUser hv' with rfl | hv''
      · show (0 : ℚ) ≤ user.ton_balance + user.referral_earnings_pending
        have hb := (hg.1 user huser.1).1
        linarith
      · exact (hg.1 v hv'').1
    · rw [if_neg hp] at h
      obtain rfl := (Except.ok.inj h).symm
      intro v hv'
      exact (hg.1 v hv').1

theorem withdraw_gift_ok {db : DB} {uid : ℤ} {username : Option String} {item_id : ℕ}
    {externalOk : Bool} {db' : DB}
    (h : withdraw_gift db uid username item_id externalOk = .ok db') (hg : GoodDB db) :
    ∀ u ∈ db'.users, 0 ≤ u.ton_balance := by
  simp only [withdraw_gift] at h
  by_cases hv : username = none ∨ username = some ""
  · rw [if_pos hv] at h
    exact Except.noConfusion h
  · rw [if_neg hv] at h
    by_cases hid : item_id = 0
    · rw [if_pos hid] at h
      exact Except.noConfusion h
    · rw [if_neg hid] at h
      cases hitem : findItem db uid item_id with
      | none => simp only [hitem] at h; exact Except.noConfusion h
      | some item =>
        simp only [hitem] at h
        by_cases hton : item.is_ton_prize
        · rw [if_pos hton] at h; exact Except.noConfusion h
        · rw [if_neg hton] at h
          cases externalOk with
          | true =>
            simp only [if_pos] at h
            obtain rfl := (Except.ok.inj h).symm
            intro v hv'
            exact (hg.1 v hv').1
          | false =>
            simp only [Bool.false_eq_true, if_neg] at h
            exact Except.noConfusion h

/-- C5: starting from a store satisfying the data-model invariants, the
observable post-state of any single ledger operation — top-up, open case,
upgrade, convert, sell all, promo redemption, referral-earnings
withdrawal, gift withdrawal — has no negative account balance. -/
theorem claim_C5 (op : LedgerOp) (db : DB) (hg : GoodDB db) :
    ∀ u ∈ (applyOp op db).users, 0 ≤ u.ton_balance := by
  cases op with
  | topup uid amount =>
    simp only [applyOp]
    cases h : instant_topup db uid amount with
    | ok db' => exact instant_topup_ok h hg
    | error e => intro u hu; exact (hg.1 u hu).1
  | openCase cases' uid cid mult rng =>
    simp only [applyOp]
    cases h : open_case cases' db uid cid mult rng with
    | ok p =>
      obtain ⟨db', won⟩ := p
      exact open_case_ok h hg
    | error e => intro u hu; exact (hg.1 u hu).1
  | upgrade uid item_id desired_name success =>
    simp only [applyOp]
    cases h : upgrade_item_v2 db uid item_id desired_name success with
    | ok db' => exact upgrade_item_v2_ok h hg
    | error e => intro u hu; exact (hg.1 u hu).1
  | convert uid item_id =>
    simp only [applyOp]
    cases h : convert_to_ton db uid item_id with
    | ok db' => exact convert_to_ton_ok h hg
    | error e => intro u hu; exact (hg.1 u hu).1
  | sellAll uid =>
    simp only [applyOp]
    cases h : sell_all_items db uid with
    | ok p =>
      obtain ⟨db', n⟩ := p
      exact sell_all_items_ok h hg
    | error e => intro u hu; exact (hg.1 u hu).1
  | redeemPromo uid code =>
    simp only [applyOp]
    cases h : redeem_promocode db uid code with
    | ok p =>
      obtain ⟨db', bal⟩ := p
      exact redeem_promocode_ok h hg
    | error e => intro u hu; exact (hg.1 u hu).1
  | withdrawReferral uid =>
    simp only [applyOp]
    cases h : withdraw_referral_earnings db uid with
    | ok db' => exact withdraw_referral_earnings_ok h hg
    | error e => intro u hu; exact (hg.1 u hu).1
  | withdrawGift uid username item_id externalOk =>
    simp only [applyOp]
    cases h : withdraw_gift db uid username item_id externalOk with
    | ok db' => exact withdraw_gift_ok h hg
    | error e => intro u hu; exact (hg.1 u hu).1

/-- C5 (witness): a concrete top-up on a concrete well-formed store. -/
theorem claim_C5_witness :
    GoodDB wDB ∧
    0 ≤ ({ wUser with ton_balance := wUser.ton_balance + 5 } : UserR).ton_balance := by
  have hGood : GoodDB wDB := by
    refine ⟨?_, ?_, ?_⟩
    · intro u hu
      simp only [wDB, List.mem_singleton] at hu
      subst hu
      constructor <;> norm_num [wUser]
    · intro it hit
      simp [wDB] at hit
    · intro pc hpc
      simp [wDB] at hpc
  refine ⟨hGood, ?_⟩
  apply claim_C5 (.topup 1 5) wDB hGood
  simp only [applyOp, instant_topup]
  norm_num [findUser, findQ, updateUser, wDB, wUser]

/-! ### Claim C6

The claim says the second redemption of a 1-activation promo code by the
same account fails with the already-redeemed error.  In the code the
expiry check (line 565) precedes the already-redeemed check (line 566),
and after the first redemption `activations_left` is 0, so the second
attempt fails with the expired-code error instead. -/


/-- C6 (counterexample): with `remainingActivations = 1`, `amount = 5` and
balance 0, the first redemption succeeds with balance 5, but the second
redemption by the same account fails with the expired-code error, not the
already-redeemed error. -/
theorem claim_C6_counterexample :
    redeem_promocode dbP 1 "CODE" = .ok (dbP1, 5) ∧
    redeem_promocode dbP1 1 "CODE" = .error .codeExpired ∧
    ApiError.codeExpired ≠ ApiError.alreadyRedeemed := by
  refine ⟨?_, ?_, by decide⟩
  · simp [redeem_promocode, findUser, findPromo, findQ, updateUser, updatePromo,
      dbP, dbP1, pUser, promoW]
  · simp [redeem_promocode, findUser, findPromo, findQ, dbP1, pUser, promoW]

/-- C6 (amended): for every account and promo code with
`remainingActivations = 1`, `amount = 5` and starting balance 0, the first
redemption succeeds, the balance becomes 5 and `remainingActivations`
becomes 0; the second attempt by the same account fails with the
expired-code error (the expiry check precedes the already-redeemed check
and the activation count is now 0), leaving all state unchanged; and
unlimited codes (`remainingActivations = -1`) are never decremented. -/
theorem claim_C6 :
    (∀ (db : DB) (uid : ℤ) (code : String) (user : UserR) (promo : PromoCodeR),
      code ≠ "" →
      findUser db uid = some user →
      findPromo db code = some promo →
      user.ton_balance = 0 →
      promo.activations_left = 1 →
      promo.ton_amount = 5 →
      (¬ ∃ r ∈ db.redemptions, r.user_id = uid ∧ r.promo_code_id = promo.id) →
      ∃ db1, redeem_promocode db uid code = .ok (db1, 5) ∧
        findUser db1 uid = some { user with ton_balance := 5 } ∧
        findPromo db1 code = some { promo with activations_left := 0 } ∧
        redeem_promocode db1 uid code = .error .codeExpired) ∧
    (∀ (db : DB) (uid : ℤ) (code : String) (user : UserR) (promo : PromoCodeR),
      code ≠ "" →
      findUser db uid = some user →
      findPromo db code = some promo →
      promo.activations_left = -1 →
      (¬ ∃ r ∈ db.redemptions, r.user_id = uid ∧ r.promo_code_id = promo.id) →
      ∃ db1, redeem_promocode db uid code = .ok (db1, user.ton_balance + promo.ton_amount) ∧
        findPromo db1 code = some promo) := by
  constructor
  · intro db uid code user promo hcode huser hpromo hbal hact hamt hnored
    have huid : user.id = uid := (findQ_eq_some huser).2
    have hpcode : promo.code_text = code := (findQ_eq_some hpromo).2
    have hexp : ¬ (promo.activations_left ≠ -1 ∧ promo.activations_left ≤ 0) := by
      rw [hact]; decide
    have hdec : promo.activations_left ≠ -1 := by rw [hact]; decide
    simp only [redeem_promocode]
    rw [if_neg hcode]
    simp only [huser, hpromo]
    rw [if_neg hexp, if_neg hnored, if_pos hdec]
    have h5 : user.ton_balance + promo.ton_amount = (5 : ℚ) := by
      rw [hbal, hamt]; norm_num
    rw [h5]
    have hact0 : promo.activations_left - 1 = (0 : ℤ) := by rw [hact]; decide
    rw [hact0]
    refine ⟨_, rfl, ?_, ?_, ?_⟩
    · exact findQ_users_update huser huid
    · exact findQ_promos_update promo { promo with activations_left := 0 } rfl hpcode hpromo
    · have huser1 : findUser
          ({ updatePromo (updateUser db { user with ton_balance := 5 })
              { promo with activations_left := 0 } with
            redemptions := db.redemptions ++ [⟨uid, promo.id⟩] } : DB) uid =
          some { user with ton_balance := 5 } :=
        findQ_users_update huser huid
      have hpromo1 : findPromo
          ({ updatePromo (updateUser db { user with ton_balance := 5 })
              { promo with activations_left := 0 } with
            redemptions := db.redemptions ++ [⟨uid, promo.id⟩] } : DB) code =
          some { promo with activations_left := 0 } :=
        findQ_promos_update promo { promo with activations_left := 0 } rfl hpcode hpromo
      simp only [redeem_promocode]
      rw [if_neg hcode]
      simp only [huser1, hpromo1]
      rw [if_pos (by decide : ((0 : ℤ) ≠ -1 ∧ (0 : ℤ) ≤ 0))]
  · intro db uid code user promo hcode huser hpromo hact hnored
    have hpcode : promo.code_text = code := (findQ_eq_some hpromo).2
    have hexp : ¬ (promo.activations_left ≠ -1 ∧ promo.activations_left ≤ 0) := by
      rw [hact]; decide
    have hdec : ¬ promo.activations_left ≠ -1 := by rw [hact]; decide
    simp only [redeem_promocode]
    rw [if_neg hcode]
    simp only [huser, hpromo]
    rw [if_neg hexp, if_neg hnored, if_neg hdec]
    exact ⟨_, rfl, findQ_promos_update promo promo rfl hpcode hpromo⟩

/-- C6 (witness): the amended double-redemption scenario at the concrete
store. -/
theorem claim_C6_witness :
    ∃ db1, redeem_promocode dbP 1 "CODE" = .ok (db1, 5) ∧
      findUser db1 1 = some { pUser with ton_balance := 5 } ∧
      findPromo db1 "CODE" = some { promoW with activations_left := 0 } ∧
      redeem_promocode db1 1 "CODE" = .error .codeExpired :=
  claim_C6.1 dbP 1 "CODE" pUser promoW
    (by decide)
    (by simp [findUser, findQ, dbP, pUser])
    (by simp [findPromo, findQ, dbP, promoW])
    rfl rfl rfl
    (by simp [dbP])

/-! ### Claim C7 -/

/-- C7: for every withdrawal of an owned, non-currency inventory item by
an account with a usable handle, the item row is deleted exactly when the
external fulfillment call succeeds; on external failure the handler
returns the retryable external-service error and (by the transaction
semantics of `applyOp`) no local state change survives.  Balances and
counters are untouched in both cases (`db'.users = db.users`). -/
theorem claim_C7 :
    ∀ (db : DB) (uid : ℤ) (username : Option String) (item_id : ℕ) (item : Item),
      ¬ (username = none ∨ username = some "") →
      item_id ≠ 0 →
      findItem db uid item_id = some item →
      item.is_ton_prize = false →
      ((∃ db', withdraw_gift db uid username item_id true = .ok db' ∧
        db'.users = db.users ∧
        db'.promos = db.promos ∧
        db'.redemptions = db.redemptions ∧
        (∀ it ∈ db'.items, it.id ≠ item.id) ∧
        (∀ it ∈ db.items, it.id ≠ item.id → it ∈ db'.items)) ∧
       withdraw_gift db uid username item_id false = .error .externalServiceFailure) := by
  intro db uid username item_id item hun hid hitem hton
  have hnton : ¬ (item.is_ton_prize = true) := by rw [hton]; simp
  constructor
  · simp only [withdraw_gift]
    rw [if_neg hun, if_neg hid]
    simp only [hitem]
    rw [if_neg hnton, if_true]
    refine ⟨_, rfl, rfl, rfl, rfl, ?_, ?_⟩
    · intro it hit
      exact (mem_filterQ.mp hit).2
    · intro it hit hne
      exact mem_filterQ.mpr ⟨hit, hne⟩
  · simp only [withdraw_gift]
    rw [if_neg hun, if_neg hid]
    simp only [hitem]
    rw [if_neg hnton, if_neg (by simp : ¬ ((false : Bool) = true))]


/-- C7 (witness): the withdrawal contract at a concrete store. -/
theorem claim_C7_witness :
    (∃ db', withdraw_gift dbG 1 (some "alice") 1 true = .ok db' ∧
      db'.users = dbG.users ∧
      db'.promos = dbG.promos ∧
      db'.redemptions = dbG.redemptions ∧
      (∀ it ∈ db'.items, it.id ≠ gItem.id) ∧
      (∀ it ∈ dbG.items, it.id ≠ gItem.id → it ∈ db'.items)) ∧
    withdraw_gift dbG 1 (some "alice") 1 false = .error .externalServiceFailure :=
  claim_C7 dbG 1 (some "alice") 1 gItem
    (by simp)
    (by decide)
    (by simp [findItem, findQ, dbG, gItem])
    rfl

/-! ### Claim C8 -/

/-- C8: a failed upgrade destroys the source item, debits `currentValue`
from the cumulative-winnings counter without flooring it at zero (the
committed row is `user` with only `total_won_ton` changed, so the currency
balance is untouched and the counter can go negative); a successful
upgrade credits the value difference, again leaving the balance untouched;
by contrast, the conversion path floors the counter at zero
(`max 0 (total_won_ton − value)`). -/
theorem claim_C8 :
    (∀ (db : DB) (uid : ℤ) (item_id : ℕ) (desired_name : String)
        (user : UserR) (item : Item) (desired_nft : NFTR),
      item_id ≠ 0 → desired_name ≠ "" →
      findUser db uid = some user →
      findItem db uid item_id = some item →
      findNFT db desired_name = some desired_nft →
      item.is_ton_prize = false →
      0 < item.current_value →
      item.current_value < desired_nft.floor_price →
      (∃ db', upgrade_item_v2 db uid item_id desired_name false = .ok db' ∧
        findUser db' uid =
          some { user with total_won_ton := user.total_won_ton - item.current_value } ∧
        (∀ it ∈ db'.items, it.id ≠ item.id) ∧
        db'.promos = db.promos ∧ db'.redemptions = db.redemptions) ∧
      (∃ db', upgrade_item_v2 db uid item_id desired_name true = .ok db' ∧
        findUser db' uid =
          some { user with total_won_ton :=
            user.total_won_ton + (desired_nft.floor_price - item.current_value) })) ∧
    (∀ (db : DB) (uid : ℤ) (item_id : ℕ) (user : UserR) (item : Item),
      item_id ≠ 0 →
      findUser db uid = some user →
      findItem db uid item_id = some item →
      item.is_ton_prize = false →
      ∃ db', convert_to_ton db uid item_id = .ok db' ∧
        findUser db' uid = some { user with
          ton_balance := user.ton_balance + item.current_value,
          total_won_ton := max 0 (user.total_won_ton - item.current_value) }) := by
  constructor
  · intro db uid item_id desired_name user item desired_nft hid hname hfu hfi hfn hton hval
      hlt
    have huid : user.id = uid := (findQ_eq_some hfu).2
    have hv : ¬ (item_id = 0 ∨ desired_name = "") := by
      rintro (h | h)
      · exact hid h
      · exact hname h
    have h1 : ¬ (item.is_ton_prize = true ∨ item.current_value ≤ 0) := by
      rintro (h | h)
      · rw [hton] at h
        exact Bool.noConfusion h
      · exact absurd hval (not_lt.mpr h)
    have h2 : ¬ (desired_nft.floor_price ≤ item.current_value) := not_le.mpr hlt
    constructor
    · simp only [upgrade_item_v2]
      rw [if_neg hv]
      simp only [hfu, hfi, hfn]
      rw [if_neg h1, if_neg h2, if_neg (by simp : ¬ ((false : Bool) = true))]
      refine ⟨_, rfl, ?_, ?_, rfl, rfl⟩
      · exact findQ_users_update hfu huid
      · intro it hit
        exact (mem_filterQ.mp hit).2
    · simp only [upgrade_item_v2]
      rw [if_neg hv]
      simp only [hfu, hfi, hfn]
      rw [if_neg h1, if_neg h2, if_true]
      exact ⟨_, rfl, findQ_users_update hfu huid⟩
  · intro db uid item_id user item hid hfu hfi hton
    have huid : user.id = uid := (findQ_eq_some hfu).2
    simp only [convert_to_ton]
    rw [if_neg hid]
    simp only [hfu, hfi]
    rw [if_neg (by rw [hton]; simp : ¬ (item.is_ton_prize = true))]
    exact ⟨_, rfl, findQ_users_update hfu huid⟩


/-- C8 (witness): a concrete failed upgrade drives the winnings counter to
−5 (negative, unfloored) while the balance stays put. -/
theorem claim_C8_witness :
    (∃ db', upgrade_item_v2 dbU 7 3 "Neko Helmet" false = .ok db' ∧
      findUser db' 7 = some { uU with total_won_ton := -5 } ∧
      (∀ it ∈ db'.items, it.id ≠ iU.id) ∧
      db'.promos = dbU.promos ∧ db'.redemptions = dbU.redemptions) ∧
    ({ uU with total_won_ton := (-5 : ℚ) } : UserR).ton_balance = uU.ton_balance ∧
    (-5 : ℚ) < 0 := by
  have h := (claim_C8.1 dbU 7 3 "Neko Helmet" uU iU nU
    (by decide) (by decide)
    (by simp [findUser, findQ, dbU, uU])
    (by simp [findItem, findQ, dbU, iU])
    (by simp [findNFT, findQ, dbU, nU])
    rfl
    (by norm_num [iU])
    (by norm_num [iU, nU])).1
  have heq : ({ uU with total_won_ton := uU.total_won_ton - iU.current_value } : UserR)
      = { uU with total_won_ton := -5 } := by
    simp only [uU, iU]
    norm_num
  rw [heq] at h
  exact ⟨h, rfl, by norm_num⟩

/-! ### Claim C9 -/

theorem findQ_cons_pos {α : Type} (p : α → Prop) [DecidablePred p] {a : α} (h : p a)
    (l : List α) : findQ p (a :: l) = some a := by
  simp [findQ, if_pos h]

theorem findQ_cons_neg {α : Type} (p : α → Prop) [DecidablePred p] {a : α} (h : ¬ p a)
    (l : List α) : findQ p (a :: l) = findQ p l := by
  simp [findQ, if_neg h]

theorem filterQ_cons_pos {α : Type} (p : α → Prop) [DecidablePred p] {a : α} (h : p a)
    (l : List α) : filterQ p (a :: l) = a :: filterQ p l := by
  simp [filterQ, if_pos h]

theorem filterQ_cons_neg {α : Type} (p : α → Prop) [DecidablePred p] {a : α} (h : ¬ p a)
    (l : List α) : filterQ p (a :: l) = filterQ p l := by
  simp [filterQ, if_neg h]

/-- C9: the validator accepts a payload exactly when the HMAC-SHA256 hex
digest of the sorted `key=value` lines (all fields except the signature
field, joined by newlines), keyed by `HMAC-SHA256(key="WebAppData",
message=token)`, equals the supplied signature; and no payload-age check
is applied — a correctly signed payload is accepted for every value of
its `auth_date` field (`AUTH_DATE_MAX_AGE_SECONDS` is never consulted). -/
theorem claim_C9 :
    (∀ (hmacHex : String → String → String) (token : String)
        (data : List (String × String)),
      validate_init_data hmacHex token data = true ↔
        (token ≠ "" ∧ ∃ hv, findQ (fun kv => kv.1 = "hash") data = some hv ∧
          hmacHex (hmacHex "WebAppData" token)
            (buildCheckString (filterQ (fun kv => ¬ kv.1 = "hash") data)) = hv.2)) ∧
    (∀ (hmacHex : String → String → String) (token age : String)
        (fields : List (String × String)),
      token ≠ "" →
      (∀ kv ∈ fields, kv.1 ≠ "hash") →
      validate_init_data hmacHex token
        ((("auth_date", age) :: fields) ++
          [("hash", hmacHex (hmacHex "WebAppData" token)
            (buildCheckString (("auth_date", age) :: fields)))]) = true) := by
  constructor
  · intro hmacHex token data
    simp only [validate_init_data]
    by_cases ht : token = ""
    · rw [if_pos ht]
      constructor
      · intro h
        exact Bool.noConfusion h
      · rintro ⟨h, -⟩
        exact absurd ht h
    · rw [if_neg ht]
      cases hf : findQ (fun kv => kv.1 = "hash") data with
      | none =>
        simp only [hf]
        constructor
        · intro h
          exact Bool.noConfusion h
        · rintro ⟨-, hv', hfind, -⟩
          exact Option.noConfusion hfind
      | some hv =>
        simp only [hf]
        constructor
        · intro h
          exact ⟨ht, hv, rfl, of_decide_eq_true h⟩
        · rintro ⟨-, hv', hfind, heq⟩
          obtain rfl := Option.some.inj hfind
          exact decide_eq_true heq
  · intro hmacHex token age fields ht hnohash
    set D := hmacHex (hmacHex "WebAppData" token)
      (buildCheckString (("auth_date", age) :: fields)) with hD
    have hfields : ∀ kv ∈ fields, ¬ kv.1 = "hash" := fun kv hkv => hnohash kv hkv
    have hfind : findQ (fun kv => kv.1 = "hash")
        ((("auth_date", age) :: fields) ++ [("hash", D)]) = some ("hash", D) := by
      rw [List.cons_append,
        findQ_cons_neg (fun kv : String × String => kv.1 = "hash")
          (show ¬ (("auth_date", age) : String × String).1 = "hash" from by simp),
        findQ_append_of_none hfields,
        findQ_cons_pos (fun kv : String × String => kv.1 = "hash")
          (show (("hash", D) : String × String).1 = "hash" from rfl)]
    have hfilter : filterQ (fun kv => ¬ kv.1 = "hash")
        ((("auth_date", age) :: fields) ++ [("hash", D)]) = ("auth_date", age) :: fields := by
      rw [List.cons_append,
        filterQ_cons_pos (fun kv : String × String => ¬ kv.1 = "hash")
          (show ¬ (("auth_date", age) : String × String).1 = "hash" from by simp),
        filterQ_append,
        filterQ_eq_self hfields,
        filterQ_cons_neg (fun kv : String × String => ¬ kv.1 = "hash")
          (show ¬ ¬ (("hash", D) : String × String).1 = "hash" from by simp)]
      rw [show filterQ (fun kv : String × String => ¬ kv.1 = "hash")
          ([] : List (String × String)) = [] from rfl, List.append_nil]
    simp only [validate_init_data]
    rw [if_neg ht]
    simp only [hfind]
    rw [hfilter]
    exact decide_eq_true rfl

/-- C9 (witness): a concrete correctly signed payload with an arbitrary
`auth_date` value is accepted by the validator. -/
theorem claim_C9_witness :
    ("t" : String) ≠ "" ∧
    (∀ kv ∈ [(("user" : String), ("u" : String))], kv.1 ≠ "hash") ∧
    validate_init_data (fun k m => k ++ "|" ++ m) "t"
      ((("auth_date", "0") :: [("user", "u")]) ++
        [("hash", (fun k m => k ++ "|" ++ m) ((fun k m => k ++ "|" ++ m) "WebAppData" "t")
          (buildCheckString (("auth_date", "0") :: [("user", "u")])))]) = true := by
  have h1 : ("t" : String) ≠ "" := by decide
  have h2 : ∀ kv ∈ [(("user" : String), ("u" : String))], kv.1 ≠ "hash" := by decide
  exact ⟨h1, h2, claim_C9.2 (fun k m => k ++ "|" ++ m) "t" "0" [("user", "u")] h1 h2⟩

/-! ### Claim C10 -/

/-- C10: registering a referral with a code that matches no account, or
that resolves to the new account itself, records no referrer link yet
still returns the same success status as a genuinely linked registration —
the caller cannot tell a silently ignored code from a linked one. -/
theorem claim_C10 :
    ∀ (db : DB) (user_id : ℤ) (username first_name last_name : Option String)
      (ref_code freshCode : String) (referred : UserR),
      user_id ≠ 0 → ref_code ≠ "" →
      findUser db user_id = some referred →
      referred.referred_by_id = none →
      ((findQ (fun u => u.referral_code = ref_code) db.users = none →
        register_referral db user_id username first_name last_name ref_code freshCode =
          .ok (db, "success")) ∧
       (findQ (fun u => u.referral_code = ref_code) db.users = some referred →
        register_referral db user_id username first_name last_name ref_code freshCode =
          .ok (db, "success")) ∧
       (∀ referrer, findQ (fun u => u.referral_code = ref_code) db.users = some referrer →
        referrer.id ≠ referred.id →
        register_referral db user_id username first_name last_name ref_code freshCode =
          .ok (updateUser db { referred with referred_by_id := some referrer.id },
            "success"))) := by
  intro db user_id username first_name last_name ref_code freshCode referred hid hcode hfu
    hrb
  have hv : ¬ (user_id = 0 ∨ ref_code = "") := by
    rintro (h | h)
    · exact hid h
    · exact hcode h
  have hnb : ¬ (referred.referred_by_id ≠ none) := by rw [hrb]; simp
  refine ⟨?_, ?_, ?_⟩
  · intro hnone
    simp only [register_referral]
    rw [if_neg hv]
    simp only [hfu]
    rw [if_neg hnb]
    simp only [linkReferrer, hnone]
  · intro hself
    simp only [register_referral]
    rw [if_neg hv]
    simp only [hfu]
    rw [if_neg hnb]
    simp only [linkReferrer, hself]
    rw [if_neg (by simp : ¬ (referred.id ≠ referred.id))]
  · intro referrer hfind hne
    simp only [register_referral]
    rw [if_neg hv]
    simp only [hfu]
    rw [if_neg hnb]
    simp only [linkReferrer, hfind]
    rw [if_pos hne]


/-- C10 (witness): an unknown referral code and a self-referral both
return the plain success status with no link recorded. -/
theorem claim_C10_witness :
    register_referral dbR 9 none none none "nope" "fresh" = .ok (dbR, "success") ∧
    register_referral dbR 9 none none none "ref_9" "fresh" = .ok (dbR, "success") := by
  have hfu : findUser dbR 9 = some uC := by simp [findUser, findQ, dbR, uC]
  have h := claim_C10 dbR 9 none none none "nope" "fresh" uC (by decide) (by decide) hfu rfl
  have h' := claim_C10 dbR 9 none none none "ref_9" "fresh" uC (by decide) (by decide) hfu
    rfl
  refine ⟨h.1 ?_, h'.2.1 ?_⟩
  · simp [findQ, dbR, uC]
  · simp [findQ, dbR, uC]

end Ludik
